import Mathlib

/-!
# Semantic Sentinel — verification of the guardrails gateway

Shallow embedding of the `semantic-sentinel` repository: the guardrails
engine (`guardrails_lib/engine.py`), the topic guardrail
(`guardrails_lib/topic_guardrail.py`), the factory
(`guardrails_lib/factory.py`), the gateway request handler
(`app/main.py`), and a model of the streaming sanitizer (whose source is
not part of the provided tree; it is modelled from the specification).

Text is represented as `List Char`.  Python `re` behaviour for the three
concrete PII patterns is embedded as deterministic matchers that follow
the leftmost / greedy-with-backtracking semantics of the patterns

  EMAIL  [a-zA-Z0-9._%+-]+@[a-zA-Z0-9.-]+\.[a-zA-Z]{2,}
  PHONE  \b\d{3}[-.]?\d{3}[-.]?\d{4}\b
  SSN    \b\d{3}-\d{2}-\d{4}\b
-/

namespace Sentinel

/-! ## Character classes of the compiled patterns -/

/-- Membership in `[a-zA-Z0-9._%+-]`, the local part of the EMAIL pattern. -/
def isLocalChar (c : Char) : Bool :=
  c.isAlpha || c.isDigit || c = '.' || c = '_' || c = '%' || c = '+' || c = '-'

/-- Membership in `[a-zA-Z0-9.-]`, the domain part of the EMAIL pattern. -/
def isDomainChar (c : Char) : Bool :=
  c.isAlpha || c.isDigit || c = '.' || c = '-'

/-- Membership in `[a-zA-Z]`, the TLD part of the EMAIL pattern. -/
def isTldChar (c : Char) : Bool := c.isAlpha

/-- Python regex word character `\w` restricted to ASCII: `[a-zA-Z0-9_]`. -/
def isWordChar (c : Char) : Bool := c.isAlpha || c.isDigit || c = '_'

/-- Separator allowed by `[-.]?` in the PHONE pattern. -/
def isSepChar (c : Char) : Bool := c = '-' || c = '.'

/-- Word status of an optional character (`none` = string edge = non-word). -/
def wordOpt : Option Char → Bool
  | none => false
  | some c => isWordChar c

/-- A `\b` word boundary between an optional previous character and an
optional current character: the word status of the two sides differs. -/
def boundary (p c : Option Char) : Bool := wordOpt p != wordOpt c

/-! ## The EMAIL matcher

`emailMatchHere l` returns the length of the match of the EMAIL pattern
anchored at the head of `l` (Python `re` semantics: greedy components,
the domain run backtracking from the longest split that leaves a literal
dot followed by at least two letters). -/

/-- Backtracking loop for the domain part: try the split length `d`,
then `d-1`, ..., down to `1`.  On success returns `(d, tldLen)` where
`tldLen` is the greedy length of the `[a-zA-Z]{2,}` run after the dot. -/
def emailTryD (rest : List Char) : Nat → Option (Nat × Nat)
  | 0 => none
  | d + 1 =>
    let tld := ((rest.drop (d + 2)).takeWhile isTldChar).length
    if rest.get? (d + 1) = some '.' && decide (2 ≤ tld) then
      some (d + 1, tld)
    else
      emailTryD rest d

/-- Match of the EMAIL pattern anchored at the head of `l`; returns the
matched length. -/
def emailMatchHere (l : List Char) : Option Nat :=
  let loc := l.takeWhile isLocalChar
  if loc.isEmpty then none
  else if l.get? loc.length = some '@' then
    let rest := l.drop (loc.length + 1)
    let dRun := (rest.takeWhile isDomainChar).length
    match emailTryD rest dRun with
    | some (d, tldLen) => some (loc.length + 1 + d + 1 + tldLen)
    | none => none
  else none

/-! ## The PHONE matcher -/

/-- Check that the `n` characters of `l` starting at offset `off` exist and
are all decimal digits. -/
def digitsAt (l : List Char) (off n : Nat) : Bool :=
  decide (((l.drop off).take n).length = n) && ((l.drop off).take n).all Char.isDigit

/-- One backtracking alternative of the PHONE pattern: `s1`/`s2` say whether
the two optional `[-.]?` separators consume a character.  Returns the total
length on success.  The trailing `\b` is part of the alternative: if it
fails the engine backtracks to the next separator choice. -/
def phoneAlt (l : List Char) (s1 s2 : Bool) : Option Nat :=
  let w1 := if s1 then 1 else 0
  let w2 := if s2 then 1 else 0
  let m := 10 + w1 + w2
  let sep1ok := if s1 then (l.get? 3).any isSepChar else true
  let sep2ok := if s2 then (l.get? (6 + w1)).any isSepChar else true
  if digitsAt l 0 3 && sep1ok && digitsAt l (3 + w1) 3 && sep2ok
      && digitsAt l (6 + w1 + w2) 4 && boundary (l.get? (m - 1)) (l.get? m) then
    some m
  else none

/-- Match of the PHONE pattern `\b\d{3}[-.]?\d{3}[-.]?\d{4}\b` anchored at
the head of `l`, with `prev` the character before the anchor (for the
leading `\b`).  The alternatives follow greedy backtracking order:
both separators, first only, second only, neither. -/
def phoneMatchHere (prev : Option Char) (l : List Char) : Option Nat :=
  if !boundary prev (l.get? 0) then none
  else match phoneAlt l true true with
    | some m => some m
    | none => match phoneAlt l true false with
      | some m => some m
      | none => match phoneAlt l false true with
        | some m => some m
        | none => phoneAlt l false false

/-! ## The SSN matcher -/

/-- Match of the SSN pattern `\b\d{3}-\d{2}-\d{4}\b` anchored at the head
of `l` (fixed length 11). -/
def ssnMatchHere (prev : Option Char) (l : List Char) : Option Nat :=
  if boundary prev (l.get? 0) && digitsAt l 0 3 && l.get? 3 = some '-'
      && digitsAt l 4 2 && l.get? 6 = some '-' && digitsAt l 7 4
      && boundary (l.get? 10) (l.get? 11) then
    some 11
  else none

/-! ## Generic `re.sub` / `re.search` over an anchored matcher

A matcher takes the previous character (needed by `\b`) and the current
suffix, and returns the matched length at the head of the suffix.  `sub`
scans left to right: on a match it emits the placeholder and resumes after
the match (threading the last matched character as the new previous
character, as Python scans the original string); otherwise it emits one
character and advances.  Fuel makes the recursion structural; the fuel
used everywhere is the length of the list, which is always sufficient
because matches of the three patterns are nonempty. -/

/-- Matcher type: previous character, current suffix, matched length. -/
abbrev Matcher := Option Char → List Char → Option Nat

/-- Fuelled body of `re.sub` with replacement string `ph`. -/
def substGo (m : Matcher) (ph : List Char) : Nat → Option Char → List Char → List Char
  | 0, _, l => l
  | _ + 1, _, [] => []
  | f + 1, prev, c :: t =>
    match m prev (c :: t) with
    | some e => ph ++ substGo m ph f ((c :: t).get? (e - 1)) ((c :: t).drop e)
    | none => c :: substGo m ph f (some c) t

/-- Model of `re.sub(pattern, ph, l)`: replace every non-overlapping leftmost match. -/
def subst (m : Matcher) (ph : List Char) (l : List Char) : List Char :=
  substGo m ph l.length none l

/-- Fuelled body of `re.search`. -/
def searchGo (m : Matcher) : Nat → Option Char → List Char → Bool
  | 0, _, _ => false
  | _ + 1, _, [] => false
  | f + 1, prev, c :: t => (m prev (c :: t)).isSome || searchGo m f (some c) t

/-- Model of `re.search(pattern, l) is not None`. -/
def search (m : Matcher) (l : List Char) : Bool :=
  searchGo m l.length none l

/-! ## PII pattern table (engine `__init__`, step 1)

`GuardrailsEngine.__init__` hard-codes three named patterns and compiles
those whose names appear in the profile's `patterns` list, in list order. -/

/-- The three pattern kinds of the engine's hard-coded table. -/
inductive PatKind where
  | email
  | phone
  | ssn
deriving DecidableEq, Repr

/-- Pattern name as it appears in configuration (`EMAIL`, `PHONE`, `SSN`). -/
def PatKind.name : PatKind → List Char
  | .email => "EMAIL".toList
  | .phone => "PHONE".toList
  | .ssn => "SSN".toList

/-- The matcher compiled for a pattern kind. -/
def PatKind.matcher : PatKind → Matcher
  | .email => fun _ l => emailMatchHere l
  | .phone => phoneMatchHere
  | .ssn => ssnMatchHere

/-- The placeholder `<{name}_REDACTED>` substituted for a match. -/
def PatKind.placeholder (k : PatKind) : List Char :=
  '<' :: (k.name ++ "_REDACTED>".toList)

/-- Parse a configured pattern name against the hard-coded table
(`if key in patterns` in `__init__`). -/
def lookupPat (key : List Char) : Option PatKind :=
  if key = "EMAIL".toList then some .email
  else if key = "PHONE".toList then some .phone
  else if key = "SSN".toList then some .ssn
  else none

/-! ## Topic matching (`topic_guardrail.py` / engine step 2)

The engine compiles `\b(p1|p2|...)\b` with `re.IGNORECASE` from the block
list and calls `findall`, collecting the matched text slices.  Alternation
picks the first phrase of the list that matches at a position; `findall`
resumes after each match. -/

/-- Lower-case a character list (ASCII case folding, as `re.IGNORECASE`
behaves on the ASCII phrases involved). -/
def lowerList (l : List Char) : List Char := l.map Char.toLower

/-- Does phrase `p` match at the head of `l` (case-insensitively, with a
word boundary before, given `prev`, and after)?  Returns the matched slice
of `l` (original case) when it does. -/
def phraseHere (prev : Option Char) (l : List Char) (p : List Char) :
    Option (List Char) :=
  let sl := l.take p.length
  if decide (sl.length = p.length) && lowerList sl = lowerList p
      && boundary prev (l.get? 0) && boundary (l.get? (p.length - 1)) (l.get? p.length)
      && !p.isEmpty then
    some sl
  else none

/-- First phrase of the block list matching at the head of `l`. -/
def altHere (prev : Option Char) (l : List Char) : List (List Char) → Option (List Char)
  | [] => none
  | p :: ps =>
    match phraseHere prev l p with
    | some sl => some sl
    | none => altHere prev l ps

/-- Fuelled body of `findall` for the compiled topic pattern. -/
def findallGo (ps : List (List Char)) : Nat → Option Char → List Char → List (List Char)
  | 0, _, _ => []
  | _ + 1, _, [] => []
  | f + 1, prev, c :: t =>
    match altHere prev (c :: t) ps with
    | some sl => sl :: findallGo ps f ((c :: t).get? (sl.length - 1)) ((c :: t).drop sl.length)
    | none => findallGo ps f (some c) t

/-- Model of `topic_pattern.findall(text)`: all non-overlapping matched slices. -/
def findall (ps : List (List Char)) (l : List Char) : List (List Char) :=
  findallGo ps l.length none l

/-- Python string comparison (lexicographic on code points), as used by
`sorted`. -/
def strLe (a b : List Char) : Bool :=
  match a, b with
  | [], _ => true
  | _ :: _, [] => false
  | c :: a, d :: b => if c = d then strLe a b else decide (c < d)

/-- Insert into a `strLe`-sorted list (structural, so that scans reduce
by evaluation). -/
def insertSorted (x : List Char) : List (List Char) → List (List Char)
  | [] => [x]
  | y :: ys => if strLe x y then x :: y :: ys else y :: insertSorted x ys

/-- Lexicographic insertion sort. -/
def sortStr : List (List Char) → List (List Char)
  | [] => []
  | x :: xs => insertSorted x (sortStr xs)

/-- Model of `sorted(list(set(ms)))`: deduplicate, then sort lexicographically
(the elements are pairwise distinct after deduplication, so any sort
agrees with Python's). -/
def sortedUnique (ms : List (List Char)) : List (List Char) :=
  sortStr ms.dedup

/-- Joining in the style of `", ".join` and `",".join`. -/
def joinSep (sep : List Char) : List (List Char) → List Char
  | [] => []
  | [x] => x
  | x :: xs => x ++ sep ++ joinSep sep xs

/-! ## The engine (`GuardrailsEngine`)

`__init__` pre-compiles: the PII patterns named in the profile (in list
order, against the hard-coded table), the topic alternation (only when
`topics.enabled` and the block list is nonempty), and the semantic model
(only when `semantic_blocking.enabled` and the backend loads; the backend
itself — sentence embedding and cosine similarity — is an external black
box, modelled as an abstract scoring function with a threshold).
`secrets` / `injection` entries of the profile are retained in the config
dictionary but no code in `scan` reads them. -/

/-- Abstract semantic backend: a score function (max cosine similarity
against the encoded forbidden intents), the profile threshold, and the
string rendering used in the triggered-rule message. -/
structure SemCfg where
  score : List Char → ℚ
  threshold : ℚ
  render : ℚ → List Char

/-- A built engine: the pre-compiled state of `GuardrailsEngine.__init__`. -/
structure Engine where
  piiKeys : List PatKind
  topicPattern : Option (List (List Char))
  secretsEnabled : Bool
  injectionEnabled : Bool
  semantic : Option SemCfg

/-- The profile dictionary fields the engine constructor reads. -/
structure ProfileCfg where
  piiEnabled : Bool
  piiPatterns : List (List Char)
  topicsEnabled : Bool
  blockList : List (List Char)
  secretsEnabled : Bool
  injectionEnabled : Bool
  semanticEnabled : Bool

/-- Model of `GuardrailsEngine.__init__`: compile the engine from a profile.
`backend` is the result of loading the semantic model (`none` when the
library is unavailable, the load fails, or no intents are configured). -/
def mkEngine (cfg : ProfileCfg) (backend : Option SemCfg) : Engine where
  piiKeys := if cfg.piiEnabled then cfg.piiPatterns.filterMap lookupPat else []
  topicPattern :=
    if cfg.topicsEnabled && !cfg.blockList.isEmpty then some cfg.blockList else none
  secretsEnabled := cfg.secretsEnabled
  injectionEnabled := cfg.injectionEnabled
  semantic := if cfg.semanticEnabled then backend else none

/-! ## `GuardrailsEngine.scan` -/

/-- Result dictionary of `scan`. -/
structure ScanOut where
  sanitized : List Char
  triggered : List (List Char)
  score : ℚ
deriving DecidableEq

/-- The detector passes that can appear in the scan pipeline.  `secret`
and `injection` are named by the specification's fixed order; the embedded
`scan` is the judge of whether they ever run. -/
inductive PassKind where
  | pii
  | topic
  | secret
  | injection
  | semantic
deriving DecidableEq, Repr

/-- Step 1 of `scan`: for each compiled pattern, if it occurs, substitute
the placeholder and record `PII:{name}`. -/
def piiFold (keys : List PatKind) (t : List Char) (trig : List (List Char)) :
    List Char × List (List Char) :=
  match keys with
  | [] => (t, trig)
  | k :: ks =>
    if search k.matcher t then
      piiFold ks (subst k.matcher k.placeholder t) (trig ++ ["PII:".toList ++ k.name])
    else
      piiFold ks t trig

/-- The `scan` method, instrumented with the list of passes the code actually runs
(step 1 PII, step 2 topics, step 3 semantic — each recorded exactly where
the corresponding block of the Python executes). -/
def scanT (e : Engine) (prompt : List Char) : ScanOut × List PassKind :=
  let p1 := piiFold e.piiKeys prompt []
  let afterTopic :=
    match e.topicPattern with
    | none => (p1.2, ([] : List PassKind))
    | some ps =>
      let ms := findall ps p1.1
      if ms.isEmpty then (p1.2, [.topic])
      else (p1.2 ++ ["Topic:".toList ++ joinSep ",".toList (sortedUnique ms)], [.topic])
  let afterSem :=
    match e.semantic with
    | none => ((afterTopic.1, (0 : ℚ)), ([] : List PassKind))
    | some sc =>
      let s := sc.score p1.1
      if sc.threshold < s then
        ((afterTopic.1 ++ ["Semantic:Intent violation (".toList ++ sc.render s ++ ")".toList], s),
          [.semantic])
      else ((afterTopic.1, s), [.semantic])
  (⟨p1.1, afterSem.1.1, afterSem.1.2⟩, .pii :: (afterTopic.2 ++ afterSem.2))

/-- The `scan` result as the code returns it. -/
def scan (e : Engine) (prompt : List Char) : ScanOut := (scanT e prompt).1

/-! ## `GuardrailsEngine.validate` -/

/-- The `GuardrailResult` shape consumed by the gateway. -/
structure GuardrailResult where
  valid : Bool
  sanitized_text : List Char
  reason : List Char
  action : List Char
deriving DecidableEq

/-- Substring test (Python `in` on strings). -/
def hasSub (pat : List Char) : List Char → Bool
  | [] => pat.isEmpty
  | c :: t => decide ((c :: t).take pat.length = pat) || hasSub pat t

/-- Model of `validate`: wrap `scan` into a `GuardrailResult`.  A nonempty triggered
list is invalid, except that a single rule whose joined reason contains
`PII:` is downgraded to a valid, redacted result. -/
def validate (e : Engine) (text : List Char) : GuardrailResult :=
  let r := scan e text
  if r.triggered.isEmpty then
    ⟨true, r.sanitized, [], "allowed".toList⟩
  else
    let reason := joinSep ", ".toList r.triggered
    if hasSub "PII:".toList reason && decide (r.triggered.length = 1) then
      ⟨true, r.sanitized, "PII Redacted".toList, "redacted".toList⟩
    else
      ⟨false, r.sanitized, reason, "blocked".toList⟩

/-! ## The gateway request handler (`app/main.py`, `chat_completions`)

The handler extracts the last user-role message (falling back to the last
message, or the empty string), validates it, returns a 400 policy error
when the verdict is invalid-and-blocked, and otherwise forwards the
request with the selected user message's content replaced by the
sanitized text.  All other request fields pass through untouched; they
are modelled by an abstract `extra` value. -/

/-- One chat message. -/
structure ChatMessage where
  role : List Char
  content : List Char
deriving DecidableEq

/-- Index of the last message whose role is `user`. -/
def lastUserIdx (ms : List ChatMessage) : Option Nat :=
  (List.range ms.length).reverse.find?
    (fun i => decide (((ms.get? i).map ChatMessage.role).getD [] = "user".toList))

/-- The text `chat_completions` scans: content of the last user message,
else content of the last message, else empty. -/
def extractInput (ms : List ChatMessage) : List Char :=
  match lastUserIdx ms with
  | some i => ((ms.get? i).map ChatMessage.content).getD []
  | none =>
    match ms.getLast? with
    | some m => m.content
    | none => []

/-- Replace the content of the message at index `i`. -/
def setContent : List ChatMessage → Nat → List Char → List ChatMessage
  | [], _, _ => []
  | m :: t, 0, c => ⟨m.role, c⟩ :: t
  | m :: t, i + 1, c => m :: setContent t i c

/-- Outcome of the input half of the handler: either an immediate policy
error response, or a forwarded upstream request. -/
inductive GatewayOutcome (ε : Type) where
  | policyError (status : Nat) (code : List Char) (message : List Char)
  | forward (messages : List ChatMessage) (extra : ε)
deriving DecidableEq

/-- Model of `chat_completions`, input side: scan, block or sanitize-and-forward. -/
def chatCompletions {ε : Type} (e : Engine) (ms : List ChatMessage) (extra : ε) :
    GatewayOutcome ε :=
  let input := extractInput ms
  let r := validate e input
  if !r.valid && r.action = "blocked".toList then
    .policyError 400 "security_policy_violation".toList
      ("Request blocked by security guardrails: ".toList ++ r.reason)
  else
    let ms' :=
      match lastUserIdx ms with
      | some i => setContent ms i r.sanitized_text
      | none => ms
    .forward ms' extra

/-! ## Profile switching (`app/main.py`, `switch_profile`)

The loader (`GuardrailsFactory.load_from_file` of the installed
`sentinel` package, whose source is not in the tree) is abstracted as a
function returning either an engine or an error. -/

/-- The request body fields `switch_profile` reads. -/
structure SwitchBody where
  profile_path : Option (List Char)
  profile_name : Option (List Char)

/-- Response of `switch_profile`. -/
inductive SwitchOutcome where
  | ok (active : List Char)
  | err (status : Nat) (detail : List Char)
deriving DecidableEq

/-- Path resolution of `switch_profile` (`profile_path`, else
`configs/{name}`, else `configs/custom/{name}`). -/
def resolvePath (fs : List Char → Bool) (data : SwitchBody) : Option (List Char) :=
  match data.profile_path with
  | some p => some p
  | none =>
    match data.profile_name with
    | some n =>
      let p1 := "configs/".toList ++ n
      if fs p1 then some p1 else some ("configs/custom/".toList ++ n)
    | none => none

/-- Model of `switch_profile`: on any failure the global state (active engine and
profile path) is returned untouched; only a successful load swaps it. -/
def switchProfile (fs : List Char → Bool)
    (loader : List Char → Except (List Char) Engine)
    (data : SwitchBody) (st : Engine × List Char) :
    SwitchOutcome × (Engine × List Char) :=
  match resolvePath fs data with
  | none => (.err 404 "Profile not found".toList, st)
  | some p =>
    if !fs p then (.err 404 "Profile not found".toList, st)
    else
      match loader p with
      | .error e => (.err 500 ("Failed to load profile: ".toList ++ e), st)
      | .ok eng => (.ok p, (eng, p))

/-! ## The factory (`guardrails_lib/factory.py`)

`load_from_file` parses a YAML profile and calls `create_engine`, which
builds a guardrail list and calls `GuardrailsEngine(guardrails=...)`.
The engine constructor in the same tree is `def __init__(self, config)`,
so that call raises `TypeError`; the `except` fallback then calls
`GuardrailsEngine([PromptInjectionGuardrail()])`, whose body immediately
evaluates `config.get("detectors", {})` on a list and raises
`AttributeError`.  The Python calling convention is embedded explicitly
so both failures are visible. -/

/-- Python exceptions relevant to the factory paths. -/
inductive PyErr where
  | typeError (msg : List Char)
  | attrError (msg : List Char)
  | parseError (msg : List Char)
deriving DecidableEq

/-- Guardrail instances `create_engine` can construct. -/
inductive GuardObj where
  | injectionG
  | secretG
  | topicG (blockList : List (List Char))
  | piiG
deriving DecidableEq

/-- Python values that can be passed to `GuardrailsEngine(...)`. -/
inductive PyObj where
  | dictObj (cfg : ProfileCfg)
  | listObj (gs : List GuardObj)

/-- Calling `GuardrailsEngine` with positional and keyword arguments.
The signature is `(self, config)`: any keyword other than `config` is a
`TypeError`; a bound non-dict `config` raises `AttributeError` as soon as
the body runs `config.get`. -/
def engineNew (pos : List PyObj) (kw : List (List Char × PyObj)) :
    Except PyErr Engine :=
  if kw.any (fun p => decide (p.1 ≠ "config".toList)) then
    .error (.typeError "unexpected keyword argument".toList)
  else
    match pos.head? with
    | some (.dictObj cfg) => .ok (mkEngine cfg none)
    | some (.listObj _) => .error (.attrError "object has no attribute get".toList)
    | none =>
      match (kw.find? (fun p => decide (p.1 = "config".toList))).map Prod.snd with
      | some (.dictObj cfg) => .ok (mkEngine cfg none)
      | some (.listObj _) => .error (.attrError "object has no attribute get".toList)
      | none => .error (.typeError "missing argument config".toList)

/-- Model of `create_engine`: assemble the guardrail list from the config, then
call `GuardrailsEngine(guardrails=target_guardrails)`. -/
def createEngine (cfg : ProfileCfg) : Except PyErr Engine :=
  let gs :=
    (if cfg.injectionEnabled then [GuardObj.injectionG] else [])
      ++ (if cfg.secretsEnabled then [GuardObj.secretG] else [])
      ++ (if cfg.topicsEnabled then [GuardObj.topicG cfg.blockList] else [])
      ++ (if cfg.piiEnabled then [GuardObj.piiG] else [])
  engineNew [] [("guardrails".toList, .listObj gs)]

/-- Model of `load_from_file`: the `try` block opens and parses the file (outcome
given as `src`) and calls `create_engine`; on any exception the `except`
block calls `GuardrailsEngine([PromptInjectionGuardrail()])`, and an
exception raised there propagates to the caller. -/
def loadFromFile (src : Except PyErr ProfileCfg) : Except PyErr Engine :=
  match (do let cfg ← src; createEngine cfg : Except PyErr Engine) with
  | .ok e => .ok e
  | .error _ => engineNew [.listObj [GuardObj.injectionG]] []

/-! ## Streaming sanitizer (modelled from the spec)

Modelled from the spec: the source of `sentinel/streaming.py`
(`StreamSanitizer`) is not in the tree; §4.2 of the specification defines
it.  One pending buffer per session; `process(delta)` appends and runs a
full engine scan over the pending text: a blocked verdict emits a single
block-marker fragment and suppresses all further release; otherwise, when
the pending text exceeds a release watermark sized to the longest phrase
a detector can match, the text up to the last completed word boundary is
released and a trailing tail is retained.  `flush()` scans once more and
releases the remainder without tail retention. -/

/-- The redaction-marker fragment emitted when a stream is blocked. -/
def blockMarker : List Char := "[BLOCKED]".toList

/-- Session state of the sanitizer. -/
structure SanState where
  pending : List Char
  blocked : Bool
deriving DecidableEq

/-- Longest phrase any configured detector can match (the topic block
list; the watermark and retained tail are sized to it). -/
def tailLen (e : Engine) : Nat :=
  match e.topicPattern with
  | none => 0
  | some ps => ps.foldr (fun p a => max p.length a) 0

/-- Index just after the last space of `l` (`0` when `l` has no space):
the last completed word boundary. -/
def lastSpaceCut (l : List Char) : Nat :=
  l.length - (l.reverse.takeWhile (fun c => decide (c ≠ ' '))).length

/-- Model of `process(delta)`: returns the emitted fragments and the next state. -/
def sanProcess (e : Engine) (st : SanState) (delta : List Char) :
    List (List Char) × SanState :=
  if st.blocked then ([], st)
  else
    let pending := st.pending ++ delta
    let r := validate e pending
    if r.action = "blocked".toList then ([blockMarker], ⟨[], true⟩)
    else
      let text := r.sanitized_text
      if decide (tailLen e < text.length) then
        let k := lastSpaceCut (text.take (text.length - tailLen e))
        (if k = 0 then [] else [text.take k], ⟨text.drop k, false⟩)
      else ([], ⟨text, false⟩)

/-- Model of `flush()`: one final scan; blocked streams emit nothing further (the
marker was already emitted), otherwise the remainder is released without
tail retention. -/
def sanFlush (e : Engine) (st : SanState) : List (List Char) :=
  if st.blocked then []
  else
    let r := validate e st.pending
    if r.action = "blocked".toList then [blockMarker] else [r.sanitized_text]

/-- Run the whole session: `process` per delta, then one `flush`. -/
def sanRunGo (e : Engine) (st : SanState) : List (List Char) → List (List Char)
  | [] => sanFlush e st
  | d :: ds =>
    let p := sanProcess e st d
    p.1 ++ sanRunGo e p.2 ds

/-- All fragments of a session over a delta sequence. -/
def sanRun (e : Engine) (ds : List (List Char)) : List (List Char) :=
  sanRunGo e ⟨[], false⟩ ds

/-- Final state after the `process` calls (before `flush`). -/
def sanStateAfter (e : Engine) (st : SanState) : List (List Char) → SanState
  | [] => st
  | d :: ds => sanStateAfter e (sanProcess e st d).2 ds

/-- Does the session ever see a blocked verdict (in a `process` call or in
the final `flush` scan)? -/
def sanBlockedEver (e : Engine) (ds : List (List Char)) : Bool :=
  let fin := sanStateAfter e ⟨[], false⟩ ds
  fin.blocked || decide ((validate e fin.pending).action = "blocked".toList)

/-! ## Basic lemmas about the engine pipeline -/

/-- The sanitized text returned by `validate` is exactly the scan's
sanitized text, in every branch. -/
theorem validate_sanitized (e : Engine) (t : List Char) :
    (validate e t).sanitized_text = (scan e t).sanitized := by
  unfold validate
  dsimp only
  split
  · rfl
  · split <;> rfl

/-- The scan's sanitized text is the output of the PII pass: the topic and
semantic passes never alter the running text. -/
theorem scan_sanitized (e : Engine) (t : List Char) :
    (scan e t).sanitized = (piiFold e.piiKeys t []).1 := by
  unfold scan scanT
  rfl

/-- A blocked verdict is always invalid: `validate` only sets
`action = "blocked"` in the branch that sets `valid = false`. -/
theorem validate_blocked_invalid (e : Engine) (t : List Char)
    (h : (validate e t).action = "blocked".toList) :
    (validate e t).valid = false := by
  unfold validate at h ⊢
  dsimp only at h ⊢
  split at h
  · have h2 : ("allowed".toList : List Char) = "blocked".toList := h
    exact absurd h2 (by decide)
  · split at h
    · have h2 : ("redacted".toList : List Char) = "blocked".toList := h
      exact absurd h2 (by decide)
    · rename_i h1 h2
      rw [if_neg h1, if_neg h2]

/-- A PII pass over an empty pattern list changes nothing. -/
theorem piiFold_nil (t : List Char) (trig : List (List Char)) :
    piiFold [] t trig = (t, trig) := rfl

/-- If no enabled pattern occurs in the text, the PII pass is the
identity on the text and adds no triggered rule. -/
theorem piiFold_id (keys : List PatKind) (t : List Char) (trig : List (List Char))
    (h : ∀ k ∈ keys, search k.matcher t = false) :
    piiFold keys t trig = (t, trig) := by
  induction keys generalizing trig with
  | nil => rfl
  | cons k ks ih =>
    have hk : search k.matcher t = false := h k (by simp)
    simp only [piiFold, hk, Bool.false_eq_true, if_false]
    exact ih trig fun k2 hk2 => h k2 (List.mem_cons_of_mem _ hk2)

/-! ## Concrete engines used by witnesses and counterexamples -/

/-- Engine with only a topic block list (`["fraud"]`). -/
def engTopic : Engine := ⟨[], some ["fraud".toList], false, false, none⟩

/-- Engine with EMAIL and PHONE PII patterns enabled (that order). -/
def engEP : Engine := ⟨[.email, .phone], none, false, false, none⟩

/-- Engine with only the EMAIL PII pattern. -/
def engE : Engine := ⟨[.email], none, false, false, none⟩

/-- Engine with PHONE before EMAIL (a profile lists patterns in any order). -/
def engPE : Engine := ⟨[.phone, .email], none, false, false, none⟩

/-- Fully configured engine: PII, topics, secrets, injection and semantic
all enabled in the profile (the semantic backend scores every text `0`
with threshold `1`). -/
def engFull : Engine :=
  ⟨[.email], some ["x".toList], true, true, some ⟨fun _ => 0, 1, fun _ => []⟩⟩

/-! ## C1 — blocked requests -/

/-- C1: for every incoming chat request whose input validation verdict has
`action = "blocked"`, the gateway returns the 400 error response with the
stable code `security_policy_violation`, and the request (original or
redacted) is not forwarded upstream. -/
theorem C1_blocked_policy_response {ε : Type} (e : Engine) (ms : List ChatMessage) (x : ε)
    (h : (validate e (extractInput ms)).action = "blocked".toList) :
    chatCompletions e ms x =
      GatewayOutcome.policyError 400 "security_policy_violation".toList
        ("Request blocked by security guardrails: ".toList
          ++ (validate e (extractInput ms)).reason)
      ∧ ∀ (ms2 : List ChatMessage) (x2 : ε),
          chatCompletions e ms x ≠ GatewayOutcome.forward ms2 x2 := by
  have hv := validate_blocked_invalid e (extractInput ms) h
  have hmain : chatCompletions e ms x =
      GatewayOutcome.policyError 400 "security_policy_violation".toList
        ("Request blocked by security guardrails: ".toList
          ++ (validate e (extractInput ms)).reason) := by
    unfold chatCompletions
    dsimp only
    rw [if_pos (by simp [hv, h])]
  exact ⟨hmain, fun ms2 x2 hx => by rw [hmain] at hx; exact GatewayOutcome.noConfusion hx⟩

/-- Witness for C1 at a concrete blocked request. -/
theorem C1_blocked_policy_response_witness :
    (validate engTopic (extractInput [⟨"user".toList, "how to commit fraud".toList⟩])).action
        = "blocked".toList
      ∧ chatCompletions engTopic [⟨"user".toList, "how to commit fraud".toList⟩] ()
        = GatewayOutcome.policyError 400 "security_policy_violation".toList
            ("Request blocked by security guardrails: ".toList
              ++ (validate engTopic
                    (extractInput [⟨"user".toList, "how to commit fraud".toList⟩])).reason) :=
  ⟨by decide,
    (C1_blocked_policy_response engTopic [⟨"user".toList, "how to commit fraud".toList⟩] ()
      (by decide)).1⟩

/-! ## C7 — failed profile switches leave the active engine untouched -/

/-- C7: for every profile-switch attempt that fails (missing profile or a
loader error), the previously active engine and profile remain the global
state; only a successful load swaps them. -/
theorem C7_failed_switch_keeps_state (fs : List Char → Bool)
    (loader : List Char → Except (List Char) Engine)
    (data : SwitchBody) (st : Engine × List Char) (s : Nat) (d : List Char)
    (h : (switchProfile fs loader data st).1 = .err s d) :
    (switchProfile fs loader data st).2 = st := by
  unfold switchProfile at h ⊢
  cases hr : resolvePath fs data with
  | none => rfl
  | some p =>
    rw [hr] at h
    dsimp only at h ⊢
    cases hfs : fs p with
    | false => rfl
    | true =>
      simp only [hfs, Bool.not_true, Bool.false_eq_true, if_false] at h ⊢
      cases hl : loader p with
      | error e2 => rfl
      | ok eng =>
        rw [hl] at h
        exact SwitchOutcome.noConfusion h

/-- Witness for C7 at a concrete failed switch. -/
theorem C7_failed_switch_keeps_state_witness :
    (switchProfile (fun _ => false) (fun _ => .error []) ⟨none, none⟩ (engTopic, [])).1
        = .err 404 "Profile not found".toList
      ∧ (switchProfile (fun _ => false) (fun _ => .error []) ⟨none, none⟩ (engTopic, [])).2
        = (engTopic, []) :=
  ⟨rfl, C7_failed_switch_keeps_state (fun _ => false) (fun _ => .error [])
    ⟨none, none⟩ (engTopic, []) 404 "Profile not found".toList rfl⟩

/-! ## C3 — the factory fallback crashes instead of degrading -/

/-- C3: `load_from_file` never returns an engine at all: `create_engine`
calls `GuardrailsEngine(guardrails=...)` against a constructor whose
signature is `(self, config)`, raising `TypeError`; the `except` fallback
then calls `GuardrailsEngine([PromptInjectionGuardrail()])` whose body
runs `config.get` on a list and raises `AttributeError`, which propagates.
The claimed behaviour (return an injection-only engine without raising)
never happens for any profile source. -/
theorem C3_load_from_file_always_raises (src : Except PyErr ProfileCfg) :
    loadFromFile src = .error (.attrError "object has no attribute get".toList) := by
  cases src <;> rfl

/-! ## C2 — "only PII fired" is decided by `len(triggered) == 1` -/

/-- C2: counter-evaluation.  With EMAIL and PHONE enabled and no other
detector configured, the input `a@b.com 555-123-4567` fires exactly the
two PII rules (no topic, secret, injection or semantic rule exists in the
profile), yet `validate` returns an invalid, `blocked` verdict instead of
the claimed valid `redacted` one, because the redaction downgrade demands
`len(triggered_rules) == 1` — contradicting the code's own comment and
§4.1 of the specification ("Only PII fired ⇒ valid/redacted"). -/
theorem C2_two_pii_rules_blocked :
    (scan engEP "a@b.com 555-123-4567".toList).triggered
        = ["PII:EMAIL".toList, "PII:PHONE".toList]
      ∧ engEP.topicPattern = none ∧ engEP.semantic = none
      ∧ (validate engEP "a@b.com 555-123-4567".toList).action = "blocked".toList
      ∧ (validate engEP "a@b.com 555-123-4567".toList).valid = false
      ∧ (validate engEP "a@b.com 555-123-4567".toList).sanitized_text
        = "<EMAIL_REDACTED> <PHONE_REDACTED>".toList :=
  ⟨rfl, rfl, rfl, rfl, rfl, rfl⟩

/-! ## C4 — the fixed detector order has no secret or injection pass -/

/-- C4: counterexample.  On a profile with every detector enabled
(`engFull` has PII, topics, secrets, injection and semantic all on), the
scan pipeline runs PII, then topics, then semantic: there is no secret
pass and no prompt-injection pass, so the claimed fixed order
PII → topic → secret → injection → semantic is not what `scan` applies. -/
theorem C4_no_secret_or_injection_pass :
    (scanT engFull "hello".toList).2 = [PassKind.pii, PassKind.topic, PassKind.semantic]
      ∧ engFull.secretsEnabled = true ∧ engFull.injectionEnabled = true
      ∧ (scanT engFull "hello".toList).2
        ≠ [PassKind.pii, PassKind.topic, PassKind.secret, PassKind.injection,
            PassKind.semantic] := by
  refine ⟨rfl, rfl, rfl, ?_⟩
  intro hcontra
  have h1 : (scanT engFull "hello".toList).2
      = [PassKind.pii, PassKind.topic, PassKind.semantic] := rfl
  rw [h1] at hcontra
  exact absurd hcontra (by decide)

/-- C4 (amended): the order `scan` actually applies — PII first, its
output both feeding the later passes and being the returned sanitized
text; then the topic pass when a topic pattern is compiled; then the
semantic pass last and only when configured.  No secret or injection pass
occurs for any engine and any input. -/
theorem C4_amended_scan_order (e : Engine) (t : List Char) :
    (scanT e t).2
        = [PassKind.pii]
          ++ (match e.topicPattern with | some _ => [PassKind.topic] | none => [])
          ++ (match e.semantic with | some _ => [PassKind.semantic] | none => [])
      ∧ PassKind.secret ∉ (scanT e t).2
      ∧ PassKind.injection ∉ (scanT e t).2
      ∧ (scan e t).sanitized = (piiFold e.piiKeys t []).1 := by
  have htrace : (scanT e t).2
      = [PassKind.pii]
        ++ (match e.topicPattern with | some _ => [PassKind.topic] | none => [])
        ++ (match e.semantic with | some _ => [PassKind.semantic] | none => []) := by
    unfold scanT
    dsimp only
    cases e.topicPattern <;> cases e.semantic <;> dsimp only
    · rfl
    · split <;> rfl
    · split <;> rfl
    · split <;> split <;> rfl
  refine ⟨htrace, ?_, ?_, scan_sanitized e t⟩
  · rw [htrace]
    cases e.topicPattern <;> cases e.semantic <;> dsimp only <;> decide
  · rw [htrace]
    cases e.topicPattern <;> cases e.semantic <;> dsimp only <;> decide

/-! ## C10 — only an existing last user message is rewritten -/

/-- The message rewrite the claim describes: the content of the selected
message (last user message, else last message) becomes the sanitized
text. -/
def claimSelectedReplace (ms : List ChatMessage) (san : List Char) : List ChatMessage :=
  match lastUserIdx ms with
  | some i => setContent ms i san
  | none => setContent ms (ms.length - 1) san

/-- C10: counterexample.  With only an assistant message carrying an
email address, the handler validates that content (the verdict is
`redacted` with the email substituted) but forwards the messages
unchanged: the sanitized text is not applied to the selected message,
contrary to the claim. -/
theorem C10_fallback_message_not_replaced :
    chatCompletions engE [⟨"assistant".toList, "a@b.com".toList⟩] ()
        = GatewayOutcome.forward [⟨"assistant".toList, "a@b.com".toList⟩] ()
      ∧ (validate engE (extractInput [⟨"assistant".toList, "a@b.com".toList⟩])).action
        = "redacted".toList
      ∧ (validate engE (extractInput [⟨"assistant".toList, "a@b.com".toList⟩])).sanitized_text
        = "<EMAIL_REDACTED>".toList
      ∧ claimSelectedReplace [⟨"assistant".toList, "a@b.com".toList⟩]
          (validate engE (extractInput [⟨"assistant".toList, "a@b.com".toList⟩])).sanitized_text
        ≠ [⟨"assistant".toList, "a@b.com".toList⟩] := by
  refine ⟨rfl, rfl, rfl, ?_⟩
  intro hcontra
  have h1 : claimSelectedReplace [⟨"assistant".toList, "a@b.com".toList⟩]
      (validate engE (extractInput [⟨"assistant".toList, "a@b.com".toList⟩])).sanitized_text
      = [⟨"assistant".toList, "<EMAIL_REDACTED>".toList⟩] := rfl
  rw [h1] at hcontra
  have h2 : ("<EMAIL_REDACTED>".toList : List Char) = "a@b.com".toList :=
    congrArg ChatMessage.content (List.cons.inj hcontra).1
  exact absurd h2 (by decide)

/-- Frame lemma: replacing the content at index `i` leaves every other
index unchanged. -/
theorem setContent_get_ne (ms : List ChatMessage) (i : Nat) (c : List Char)
    (j : Nat) (hij : j ≠ i) : (setContent ms i c).get? j = ms.get? j := by
  induction ms generalizing i j with
  | nil => rfl
  | cons m t ih =>
    cases i with
    | zero =>
      cases j with
      | zero => exact absurd rfl hij
      | succ j => rfl
    | succ i =>
      cases j with
      | zero => rfl
      | succ j => exact ih i j (fun hh => hij (by rw [hh]))

/-- C10 (amended): the gateway validates exactly the selected content
(`extractInput`: last user message, else last message, else empty).  When
the verdict is not invalid-and-blocked, the request is forwarded with the
sanitized text applied only when a user-role message exists — in that
case only that message's content changes and every other index is
untouched; in the fallback case the messages are forwarded unchanged
(the sanitized text is not applied).  All non-message fields pass through
untouched. -/
theorem C10_amended_frame {ε : Type} (e : Engine) (ms : List ChatMessage) (x : ε)
    (h : ¬((validate e (extractInput ms)).valid = false
        ∧ (validate e (extractInput ms)).action = "blocked".toList)) :
    chatCompletions e ms x
        = GatewayOutcome.forward
            (match lastUserIdx ms with
              | some i => setContent ms i (validate e (extractInput ms)).sanitized_text
              | none => ms) x
      ∧ ∀ i j, lastUserIdx ms = some i → j ≠ i →
          (setContent ms i (validate e (extractInput ms)).sanitized_text).get? j
            = ms.get? j := by
  constructor
  · unfold chatCompletions
    dsimp only
    rw [if_neg]
    simp only [Bool.and_eq_true, Bool.not_eq_true', decide_eq_true_eq]
    exact h
  · intro i j _ hij
    exact setContent_get_ne ms i _ j hij

/-- Witness for the amended C10 at a concrete redacted request. -/
theorem C10_amended_frame_witness :
    ¬((validate engE (extractInput [⟨"user".toList, "hi a@b.com".toList⟩])).valid = false
        ∧ (validate engE (extractInput [⟨"user".toList, "hi a@b.com".toList⟩])).action
          = "blocked".toList)
      ∧ chatCompletions engE [⟨"user".toList, "hi a@b.com".toList⟩] ()
        = GatewayOutcome.forward
            (match lastUserIdx [⟨"user".toList, "hi a@b.com".toList⟩] with
              | some i => setContent [⟨"user".toList, "hi a@b.com".toList⟩] i
                  (validate engE
                    (extractInput [⟨"user".toList, "hi a@b.com".toList⟩])).sanitized_text
              | none => [⟨"user".toList, "hi a@b.com".toList⟩]) () :=
  ⟨by decide,
    (C10_amended_frame engE [⟨"user".toList, "hi a@b.com".toList⟩] () (by decide)).1⟩

/-! ## C8 — re-validation is not idempotent for every pattern order -/

/-- C8: counterexample.  With the profile pattern order `[PHONE, EMAIL]`
and input `a@b.cd5551234567`, the first validation substitutes only the
email (`a@b.cd`), exposing `5551234567` right after the placeholder's
`>`; that placeholder edge is a fresh word boundary, so re-validating the
sanitized text fires the PHONE pattern and produces a different text —
re-validation does introduce a further PII redaction. -/
theorem C8_revalidation_not_idempotent :
    (validate engPE "a@b.cd5551234567".toList).sanitized_text
        = "<EMAIL_REDACTED>5551234567".toList
      ∧ (validate engPE (validate engPE "a@b.cd5551234567".toList).sanitized_text).sanitized_text
        = "<EMAIL_REDACTED><PHONE_REDACTED>".toList
      ∧ (validate engPE (validate engPE "a@b.cd5551234567".toList).sanitized_text).sanitized_text
        ≠ (validate engPE "a@b.cd5551234567".toList).sanitized_text := by
  refine ⟨rfl, rfl, ?_⟩
  intro hcontra
  have h1 : ("<EMAIL_REDACTED><PHONE_REDACTED>".toList : List Char)
      = "<EMAIL_REDACTED>5551234567".toList := hcontra
  exact absurd h1 (by decide)

/-- C8 (amended, the spec's own hedge made formal): when no new PII is
present — no enabled pattern matches the already-sanitized text — then
re-validation returns the same sanitized text.  Moreover the substituted
placeholders themselves never match any enabled pattern. -/
theorem C8_amended_idempotent_when_no_new_pii (e : Engine)
    (s1 : List Char)
    (h : ∀ k ∈ e.piiKeys, search (PatKind.matcher k) s1 = false) :
    (validate e s1).sanitized_text = s1
      ∧ ∀ k k2 : PatKind, search (PatKind.matcher k) (PatKind.placeholder k2) = false := by
  constructor
  · rw [validate_sanitized, scan_sanitized, piiFold_id e.piiKeys s1 [] h]
  · intro k k2
    cases k <;> cases k2 <;> rfl

/-- Witness for the amended C8: the standard-order engine on the
sanitized text of `Email a@b.com`, which no enabled pattern matches. -/
theorem C8_amended_idempotent_when_no_new_pii_witness :
    (∀ k ∈ engEP.piiKeys,
        search (PatKind.matcher k) "Email <EMAIL_REDACTED>".toList = false)
      ∧ (validate engEP "Email <EMAIL_REDACTED>".toList).sanitized_text
        = "Email <EMAIL_REDACTED>".toList :=
  ⟨by decide,
    (C8_amended_idempotent_when_no_new_pii engEP "Email <EMAIL_REDACTED>".toList
      (by decide)).1⟩

/-! ## C5 — streaming sanitizer (modelled from the spec) -/

/-- Engine with only the topic block list `["cat"]`. -/
def engCat : Engine := ⟨[], some ["cat".toList], false, false, none⟩

/-- The two-delta split stream of the C5 counterexample. -/
def ds5 : List (List Char) := ["cat".toList, "s are fine".toList]

/-- Blocked-ever over a run started from an arbitrary state. -/
def sanBlockedEverFrom (e : Engine) (st : SanState) (ds : List (List Char)) : Bool :=
  let fin := sanStateAfter e st ds
  fin.blocked || decide ((validate e fin.pending).action = "blocked".toList)

/-- A blocked session stays blocked and emits nothing further. -/
theorem sanRunGo_of_blocked (e : Engine) (p : List Char) (ds : List (List Char)) :
    sanRunGo e ⟨p, true⟩ ds = [] := by
  induction ds with
  | nil => rfl
  | cons d ds ih => simpa [sanRunGo, sanProcess] using ih

/-- A blocked state is a fixed point of the per-delta step. -/
theorem sanStateAfter_of_blocked (e : Engine) (p : List Char) (ds : List (List Char)) :
    sanStateAfter e ⟨p, true⟩ ds = ⟨p, true⟩ := by
  induction ds with
  | nil => rfl
  | cons d ds ih => simpa [sanStateAfter, sanProcess] using ih

/-- A non-blocking `process` step: the state stays unblocked, and the
emitted fragments followed by the retained pending text reassemble the
scan's sanitized text. -/
theorem sanProcess_not_blocked (e : Engine) (st : SanState) (d : List Char)
    (h0 : st.blocked = false)
    (hb : ¬(validate e (st.pending ++ d)).action = "blocked".toList) :
    (sanProcess e st d).2.blocked = false
      ∧ (sanProcess e st d).1.flatten ++ (sanProcess e st d).2.pending
        = (validate e (st.pending ++ d)).sanitized_text := by
  unfold sanProcess
  rw [if_neg (by simp [h0]), if_neg hb]
  dsimp only
  split
  · split
    · rename_i hk
      simp [hk]
    · simp [List.take_append_drop]
  · simp

/-- If a run ever sees a blocked verdict, the fragments are some prefix
followed by exactly one final block-marker fragment. -/
theorem sanRunGo_marker (e : Engine) (ds : List (List Char)) (st : SanState)
    (h0 : st.blocked = false) (h : sanBlockedEverFrom e st ds = true) :
    ∃ F, sanRunGo e st ds = F ++ [blockMarker] := by
  induction ds generalizing st with
  | nil =>
    refine ⟨[], ?_⟩
    unfold sanBlockedEverFrom sanStateAfter at h
    dsimp only at h
    rw [h0] at h
    simp only [Bool.false_or, decide_eq_true_eq] at h
    unfold sanRunGo sanFlush
    rw [if_neg (by simp [h0]), if_pos h]
    rfl
  | cons d ds ih =>
    by_cases hb : (validate e (st.pending ++ d)).action = "blocked".toList
    · refine ⟨[], ?_⟩
      unfold sanRunGo
      have hp : sanProcess e st d = ([blockMarker], ⟨[], true⟩) := by
        unfold sanProcess
        rw [if_neg (by simp [h0]), if_pos hb]
      rw [hp]
      simp [sanRunGo_of_blocked]
    · have hchar := sanProcess_not_blocked e st d h0 hb
      have hfrom : sanBlockedEverFrom e (sanProcess e st d).2 ds = true := h
      obtain ⟨F, hF⟩ := ih (sanProcess e st d).2 hchar.1 hfrom
      refine ⟨(sanProcess e st d).1 ++ F, ?_⟩
      unfold sanRunGo
      dsimp only
      rw [hF, List.append_assoc]

/-- With no PII patterns the sanitized text of a scan is the text. -/
theorem validate_sanitized_id (e : Engine) (hpii : e.piiKeys = []) (t : List Char) :
    (validate e t).sanitized_text = t := by
  rw [validate_sanitized, scan_sanitized, hpii]
  rfl

/-- Conservation: if no scan of the session blocks and the engine does no
PII substitution, the emitted fragments reassemble exactly the pending
text followed by the deltas. -/
theorem sanRunGo_conserve (e : Engine) (hpii : e.piiKeys = [])
    (ds : List (List Char)) (st : SanState)
    (h0 : st.blocked = false) (h : sanBlockedEverFrom e st ds = false) :
    (sanRunGo e st ds).flatten = st.pending ++ ds.flatten := by
  induction ds generalizing st with
  | nil =>
    unfold sanBlockedEverFrom sanStateAfter at h
    dsimp only at h
    rw [h0] at h
    simp only [Bool.false_or, decide_eq_false_iff_not] at h
    unfold sanRunGo sanFlush
    rw [if_neg (by simp [h0]), if_neg h]
    simp [validate_sanitized_id e hpii]
  | cons d ds ih =>
    by_cases hb : (validate e (st.pending ++ d)).action = "blocked".toList
    · exfalso
      have hp : sanProcess e st d = ([blockMarker], ⟨[], true⟩) := by
        unfold sanProcess
        rw [if_neg (by simp [h0]), if_pos hb]
      unfold sanBlockedEverFrom sanStateAfter at h
      rw [hp] at h
      rw [sanStateAfter_of_blocked] at h
      simp at h
    · have hchar := sanProcess_not_blocked e st d h0 hb
      have hfrom : sanBlockedEverFrom e (sanProcess e st d).2 ds = false := h
      have hrest := ih (sanProcess e st d).2 hchar.1 hfrom
      unfold sanRunGo
      dsimp only
      rw [List.flatten_append, hrest, ← List.append_assoc, hchar.2,
        validate_sanitized_id e hpii]
      simp

/-- C5: counterexample.  Concatenating `"cat"` then `"s are fine"` gives a
string that the non-streaming `validate` allows unchanged, but the
sanitizer's scan of the first delta alone ("cat" at the end of the
pending buffer is a whole word) blocks the session: the streamed output
is the lone block marker, not the validate outcome. -/
theorem C5_prefix_block_not_equivalent :
    ds5.flatten = "cats are fine".toList
      ∧ (validate engCat "cats are fine".toList).action = "allowed".toList
      ∧ (validate engCat "cats are fine".toList).sanitized_text = "cats are fine".toList
      ∧ sanRun engCat ds5 = [blockMarker]
      ∧ (sanRun engCat ds5).flatten ≠ "cats are fine".toList := by
  refine ⟨rfl, rfl, rfl, rfl, ?_⟩
  intro hcontra
  have h1 : (blockMarker ++ [] : List Char) = "cats are fine".toList := hcontra
  exact absurd h1 (by decide)

/-- C5 (amended): over any delta sequence, (a) if any scan of the session
blocks — in a `process` call or at `flush` — the fragment stream is a
prefix followed by exactly one block-marker fragment, after which nothing
is released; (b) if no scan blocks and the engine performs no PII
substitution, the concatenated fragments equal the concatenated deltas
exactly.  Full equivalence with one non-streaming `validate` of the
concatenation does not hold (see the counterexample). -/
theorem C5_amended_streaming (e : Engine) (ds : List (List Char)) :
    (sanBlockedEver e ds = true → ∃ F, sanRun e ds = F ++ [blockMarker])
      ∧ (sanBlockedEver e ds = false → e.piiKeys = [] →
          (sanRun e ds).flatten = ds.flatten) := by
  constructor
  · intro h
    exact sanRunGo_marker e ds ⟨[], false⟩ rfl h
  · intro h hpii
    have := sanRunGo_conserve e hpii ds ⟨[], false⟩ rfl h
    simpa using this

/-- Witness for the amended C5: blocked case on the split stream, and
clean conservation on a harmless stream. -/
theorem C5_amended_streaming_witness :
    (sanBlockedEver engCat ds5 = true ∧ ∃ F, sanRun engCat ds5 = F ++ [blockMarker])
      ∧ (sanBlockedEver engCat ["hello ".toList, "world".toList] = false
          ∧ (sanRun engCat ["hello ".toList, "world".toList]).flatten
            = (["hello ".toList, "world".toList] : List (List Char)).flatten) :=
  ⟨⟨by decide, (C5_amended_streaming engCat ds5).1 (by decide)⟩,
    ⟨by decide,
      (C5_amended_streaming engCat ["hello ".toList, "world".toList]).2 (by decide) rfl⟩⟩

/-! ## C6 — infrastructure: list lemmas -/

/-- A `takeWhile` over an append stops at a failing head of the suffix. -/
theorem takeWhile_append_not (p : Char → Bool) (x : Char) (hx : p x = false) :
    ∀ (S R : List Char), (S ++ x :: R).takeWhile p = S.takeWhile p := by
  intro S R
  induction S with
  | nil => simp [List.takeWhile, hx]
  | cons c S ih =>
    cases hc : p c with
    | true => simp [List.takeWhile, hc, ih]
    | false => simp [List.takeWhile, hc]

/-- A `takeWhile` over an append is unchanged when it already stops strictly
inside the left part. -/
theorem takeWhile_append_stop (p : Char → Bool) :
    ∀ (S Y : List Char), (S.takeWhile p).length < S.length →
      (S ++ Y).takeWhile p = S.takeWhile p := by
  intro S Y
  induction S with
  | nil => intro h; simp at h
  | cons c S ih =>
    intro h
    cases hc : p c with
    | true =>
      rw [List.takeWhile] at h
      simp only [hc] at h
      simp only [List.length_cons, Nat.add_lt_add_iff_right] at h
      simp [List.takeWhile, hc, ih h]
    | false => simp [List.takeWhile, hc]

/-- Appending on the right can only lengthen a `takeWhile` run. -/
theorem takeWhile_append_ge (p : Char → Bool) :
    ∀ (S Y : List Char), (S.takeWhile p).length ≤ ((S ++ Y).takeWhile p).length := by
  intro S Y
  induction S with
  | nil => simp
  | cons c S ih =>
    cases hc : p c with
    | true => simpa [List.takeWhile, hc] using ih
    | false => simp [List.takeWhile, hc]

/-- A `takeWhile` runs through a fully satisfying left part. -/
theorem takeWhile_append_all (p : Char → Bool) :
    ∀ (S Y : List Char), (∀ c ∈ S, p c = true) →
      (S ++ Y).takeWhile p = S ++ Y.takeWhile p := by
  intro S Y h
  induction S with
  | nil => simp
  | cons c S ih =>
    have hc : p c = true := h c (by simp)
    simp [List.takeWhile, hc, ih (fun d hd => h d (by simp [hd]))]

/-- The `drop` of an append distributes over an append when it stays in the left part. -/
theorem drop_append_le :
    ∀ (A B : List Char) (n : Nat), n ≤ A.length →
      (A ++ B).drop n = A.drop n ++ B := by
  intro A
  induction A with
  | nil =>
    intro B n h
    have hn : n = 0 := Nat.le_zero.mp h
    subst hn
    simp
  | cons c A ih =>
    intro B n h
    cases n with
    | zero => simp
    | succ n => simpa using ih B n (by simpa using h)

/-- The `drop` past the left part of an append drops into the right part. -/
theorem drop_append_ge :
    ∀ (A B : List Char) (n : Nat), A.length ≤ n →
      (A ++ B).drop n = B.drop (n - A.length) := by
  intro A
  induction A with
  | nil => intro B n h; simp
  | cons c A ih =>
    intro B n h
    cases n with
    | zero => simp at h
    | succ n => simpa using ih B n (by simpa using h)

/-! ## C6 — characterization of the EMAIL matcher -/

/-- Declarative characterization of a match of the EMAIL pattern at the
head of `l`: a nonempty maximal local run, an `@`, and some domain split
`d` leaving a literal dot followed by at least two letters. -/
def emailCan (l : List Char) : Prop :=
  0 < (l.takeWhile isLocalChar).length
    ∧ l.get? (l.takeWhile isLocalChar).length = some '@'
    ∧ ∃ d, 1 ≤ d
        ∧ d ≤ (((l.drop ((l.takeWhile isLocalChar).length + 1)).takeWhile isDomainChar)).length
        ∧ (l.drop ((l.takeWhile isLocalChar).length + 1)).get? d = some '.'
        ∧ 2 ≤ (((l.drop ((l.takeWhile isLocalChar).length + 1)).drop (d + 1)).takeWhile
            isTldChar).length

/-- The domain backtracking loop succeeds exactly when some admissible
split exists below its starting bound. -/
theorem emailTryD_isSome_iff (rest : List Char) :
    ∀ n, (emailTryD rest n).isSome ↔
      ∃ d, 1 ≤ d ∧ d ≤ n ∧ rest.get? d = some '.'
        ∧ 2 ≤ ((rest.drop (d + 1)).takeWhile isTldChar).length := by
  intro n
  induction n with
  | zero =>
    simp only [emailTryD, Option.isSome_none, Bool.false_eq_true, false_iff]
    rintro ⟨d, h1, h2, -, -⟩
    omega
  | succ m ih =>
    rw [emailTryD]
    split
    · rename_i hcond
      simp only [Bool.and_eq_true, decide_eq_true_eq] at hcond
      simp only [Option.isSome_some, true_iff]
      exact ⟨m + 1, by omega, by omega, hcond.1, hcond.2⟩
    · rename_i hcond
      simp only [Bool.and_eq_true, decide_eq_true_eq, not_and] at hcond
      rw [ih]
      constructor
      · rintro ⟨d, h1, h2, h3, h4⟩
        exact ⟨d, h1, by omega, h3, h4⟩
      · rintro ⟨d, h1, h2, h3, h4⟩
        refine ⟨d, h1, ?_, h3, h4⟩
        rcases Nat.lt_or_ge d (m + 1) with hlt | hge
        · omega
        · have hd : d = m + 1 := by omega
          rw [hd] at h3 h4
          exact absurd (hcond h3) (by simpa using h4)

/-- The EMAIL matcher succeeds exactly on the declarative characterization. -/
theorem emailMatchHere_isSome_iff (l : List Char) :
    (emailMatchHere l).isSome ↔ emailCan l := by
  unfold emailMatchHere emailCan
  dsimp only
  split
  · rename_i hemp
    simp only [Option.isSome_none, Bool.false_eq_true, false_iff, not_and]
    intro h0
    rw [List.isEmpty_iff] at hemp
    rw [hemp] at h0
    simp at h0
  · rename_i hemp
    split
    · rename_i hat
      cases htry : emailTryD (l.drop ((l.takeWhile isLocalChar).length + 1))
          ((l.drop ((l.takeWhile isLocalChar).length + 1)).takeWhile isDomainChar).length with
      | none =>
        constructor
        · intro h
          simp at h
        · rintro ⟨-, -, d, h1, h2, h3, h4⟩
          have hs : (emailTryD (l.drop ((l.takeWhile isLocalChar).length + 1))
              ((l.drop ((l.takeWhile isLocalChar).length + 1)).takeWhile
                isDomainChar).length).isSome := by
            rw [emailTryD_isSome_iff]
            exact ⟨d, h1, h2, h3, h4⟩
          rw [htry] at hs
          simp at hs
      | some pair =>
        constructor
        · intro _
          refine ⟨?_, hat, ?_⟩
          · rcases Nat.eq_zero_or_pos (l.takeWhile isLocalChar).length with h | h
            · rw [List.isEmpty_iff] at hemp
              exact absurd (List.length_eq_zero.mp h) hemp
            · exact h
          · have hs : (emailTryD (l.drop ((l.takeWhile isLocalChar).length + 1))
                ((l.drop ((l.takeWhile isLocalChar).length + 1)).takeWhile
                  isDomainChar).length).isSome := by rw [htry]; rfl
            rw [emailTryD_isSome_iff] at hs
            exact hs
        · intro _
          cases pair
          simp
    · rename_i hat
      simp only [Option.isSome_none, Bool.false_eq_true, false_iff, not_and]
      intro h0 hcontra
      exact absurd hcontra hat

/-- The `takeWhile` run is never longer than the list. -/
theorem takeWhile_len_le (p : Char → Bool) : ∀ l : List Char,
    (l.takeWhile p).length ≤ l.length := by
  intro l
  induction l with
  | nil => simp
  | cons c t ih =>
    cases hc : p c with
    | true => simpa [List.takeWhile, hc] using ih
    | false => simp [List.takeWhile, hc]

/-- A match at the head survives appending anything on the right: the
maximal local run is pinned by the `@`, the witness split `d` is pinned by
its dot, and the runs can only grow. -/
theorem email_extend_right (S Y : List Char)
    (h : (emailMatchHere S).isSome) : (emailMatchHere (S ++ Y)).isSome := by
  rw [emailMatchHere_isSome_iff] at h ⊢
  obtain ⟨hL, hAt, d, hd1, hd2, hdot, htld⟩ := h
  have hLlt : (S.takeWhile isLocalChar).length < S.length := by
    by_contra hge
    rw [List.get?_eq_none.mpr (by omega)] at hAt
    exact Option.noConfusion hAt
  have htw : (S ++ Y).takeWhile isLocalChar = S.takeWhile isLocalChar :=
    takeWhile_append_stop _ S Y hLlt
  have hdrop : (S ++ Y).drop ((S.takeWhile isLocalChar).length + 1)
      = S.drop ((S.takeWhile isLocalChar).length + 1) ++ Y :=
    drop_append_le S Y _ (by omega)
  have hdlt : d < (S.drop ((S.takeWhile isLocalChar).length + 1)).length := by
    by_contra hge
    rw [List.get?_eq_none.mpr (by omega)] at hdot
    exact Option.noConfusion hdot
  refine ⟨?_, ?_, d, hd1, ?_, ?_, ?_⟩
  · rw [htw]; exact hL
  · rw [htw, List.get?_append hLlt]; exact hAt
  · rw [htw, hdrop]
    exact le_trans hd2 (takeWhile_append_ge _ _ Y)
  · rw [htw, hdrop, List.get?_append hdlt]; exact hdot
  · rw [htw, hdrop, drop_append_le _ Y _ (by omega)]
    exact le_trans htld (takeWhile_append_ge _ _ Y)

/-- A match at the head of `S ++ '<' :: R` lies entirely inside `S`: the
barrier `'<'` belongs to no character class of the pattern, so the match
is already a match of `S` alone. -/
theorem email_localize (S R : List Char)
    (h : (emailMatchHere (S ++ '<' :: R)).isSome) : (emailMatchHere S).isSome := by
  rw [emailMatchHere_isSome_iff] at h ⊢
  obtain ⟨hL, hAt, d, hd1, hd2, hdot, htld⟩ := h
  have htw : (S ++ '<' :: R).takeWhile isLocalChar = S.takeWhile isLocalChar :=
    takeWhile_append_not _ '<' (by decide) S R
  rw [htw] at hL hAt hd2 hdot htld
  have hLle : (S.takeWhile isLocalChar).length ≤ S.length := takeWhile_len_le _ S
  have hLlt : (S.takeWhile isLocalChar).length < S.length := by
    rcases Nat.lt_or_ge (S.takeWhile isLocalChar).length S.length with hlt | hge
    · exact hlt
    · exfalso
      have heq : (S.takeWhile isLocalChar).length = S.length := by omega
      rw [List.get?_append_right (by omega)] at hAt
      rw [heq, Nat.sub_self] at hAt
      simp at hAt
  rw [List.get?_append hLlt] at hAt
  have hdrop : (S ++ '<' :: R).drop ((S.takeWhile isLocalChar).length + 1)
      = S.drop ((S.takeWhile isLocalChar).length + 1) ++ '<' :: R :=
    drop_append_le S _ _ (by omega)
  rw [hdrop] at hd2 hdot htld
  have htwd : (S.drop ((S.takeWhile isLocalChar).length + 1) ++ '<' :: R).takeWhile
      isDomainChar = (S.drop ((S.takeWhile isLocalChar).length + 1)).takeWhile
        isDomainChar := takeWhile_append_not _ '<' (by decide) _ R
  rw [htwd] at hd2
  have hdle : d ≤ (S.drop ((S.takeWhile isLocalChar).length + 1)).length :=
    le_trans hd2 (takeWhile_len_le _ _)
  have hdlt : d < (S.drop ((S.takeWhile isLocalChar).length + 1)).length := by
    rcases Nat.lt_or_ge d (S.drop ((S.takeWhile isLocalChar).length + 1)).length with hlt | hge
    · exact hlt
    · exfalso
      have hdd : d = (S.drop ((S.takeWhile isLocalChar).length + 1)).length := by omega
      rw [List.get?_append_right (by omega), hdd, Nat.sub_self] at hdot
      simp at hdot
  rw [List.get?_append hdlt] at hdot
  rw [drop_append_le _ _ _ (by omega)] at htld
  have htwt : ((S.drop ((S.takeWhile isLocalChar).length + 1)).drop (d + 1)
      ++ '<' :: R).takeWhile isTldChar
      = ((S.drop ((S.takeWhile isLocalChar).length + 1)).drop (d + 1)).takeWhile
        isTldChar := takeWhile_append_not _ '<' (by decide) _ R
  rw [htwt] at htld
  exact ⟨hL, hAt, d, hd1, hd2, hdot, htld⟩

/-- The empty suffix never matches. -/
theorem emailMatchHere_nil : emailMatchHere [] = none := rfl

/-- EMAIL matches are nonempty. -/
theorem email_pos (l : List Char) (e : Nat) (h : emailMatchHere l = some e) : 1 ≤ e := by
  unfold emailMatchHere at h
  dsimp only at h
  split at h
  · exact Option.noConfusion h
  · split at h
    · split at h
      · rename_i d tldLen heq
        have he := Option.some.inj h
        omega
      · exact Option.noConfusion h
    · exact Option.noConfusion h

/-- An optional result guarded by a single `if` determines its value. -/
theorem opt_if_pos {c : Prop} [Decidable c] {m e : Nat}
    (h : (if c then some m else none) = some e) : e = m := by
  split at h
  · exact (Option.some.inj h).symm
  · exact Option.noConfusion h

/-- PHONE alternatives are nonempty. -/
theorem phoneAlt_pos (l : List Char) (s1 s2 : Bool) (e : Nat)
    (h : phoneAlt l s1 s2 = some e) : 1 ≤ e := by
  unfold phoneAlt at h
  dsimp only at h
  have he := opt_if_pos h
  omega

/-- Every compiled pattern's matches are nonempty. -/
theorem pat_pos (k : PatKind) (p : Option Char) (l : List Char) (e : Nat)
    (h : PatKind.matcher k p l = some e) : 1 ≤ e := by
  cases k with
  | email => exact email_pos l e h
  | phone =>
    unfold PatKind.matcher phoneMatchHere at h
    dsimp only at h
    by_cases hb : (!boundary p (l.get? 0)) = true
    · rw [if_pos hb] at h
      exact Option.noConfusion h
    · rw [if_neg hb] at h
      cases h11 : phoneAlt l true true with
      | some m =>
        rw [h11] at h
        have he := Option.some.inj h
        have := phoneAlt_pos l true true m h11
        omega
      | none =>
        rw [h11] at h
        cases h10 : phoneAlt l true false with
        | some m =>
          rw [h10] at h
          have he := Option.some.inj h
          have := phoneAlt_pos l true false m h10
          omega
        | none =>
          rw [h10] at h
          cases h01 : phoneAlt l false true with
          | some m =>
            rw [h01] at h
            have he := Option.some.inj h
            have := phoneAlt_pos l false true m h01
            omega
          | none =>
            rw [h01] at h
            exact phoneAlt_pos l false false e h
  | ssn =>
    unfold PatKind.matcher ssnMatchHere at h
    dsimp only at h
    have he := opt_if_pos h
    omega

/-- No EMAIL match starts on a run of local characters closed by `'>'`:
the run ends at the `'>'`, which is not the required `'@'`. -/
theorem email_none_local_gt (A R : List Char)
    (hA : ∀ c ∈ A, isLocalChar c = true) :
    emailMatchHere (A ++ '>' :: R) = none := by
  cases hm : emailMatchHere (A ++ '>' :: R) with
  | none => rfl
  | some e =>
    exfalso
    have hs : (emailMatchHere (A ++ '>' :: R)).isSome := by rw [hm]; rfl
    rw [emailMatchHere_isSome_iff] at hs
    obtain ⟨-, hAt, -⟩ := hs
    have htw : (A ++ '>' :: R).takeWhile isLocalChar = A := by
      rw [takeWhile_append_all _ A ('>' :: R) hA]
      have : ('>' :: R).takeWhile isLocalChar = [] := by
        rw [List.takeWhile_cons]
        simp [show isLocalChar '>' = false from by decide]
      rw [this, List.append_nil]
    rw [htw, List.get?_append_right (le_refl A.length), Nat.sub_self] at hAt
    simp at hAt

/-- No EMAIL match starts at a `'<'`. -/
theorem email_none_lt_head (R : List Char) : emailMatchHere ('<' :: R) = none := by
  unfold emailMatchHere
  dsimp only
  rw [if_pos]
  rw [List.takeWhile_cons]
  simp [show isLocalChar '<' = false from by decide]

/-- Placeholder interior characters. -/
def midOf : PatKind → List Char
  | .email => "EMAIL_REDACTED".toList
  | .phone => "PHONE_REDACTED".toList
  | .ssn => "SSN_REDACTED".toList

/-- Placeholders are `'<'`, a local-character interior, then `'>'`. -/
theorem placeholder_eq (k : PatKind) :
    PatKind.placeholder k = '<' :: (midOf k ++ ['>']) := by
  cases k <;> rfl

/-- Interior characters of every placeholder are local characters. -/
theorem midOf_local (k : PatKind) : ∀ c ∈ midOf k, isLocalChar c = true := by
  cases k <;> decide

/-- No EMAIL match starts inside any placeholder, whatever follows it:
every proper suffix of a placeholder is a local run closed by `'>'`. -/
theorem email_none_placeholder_suffix (k2 : PatKind) (k : Nat)
    (hk : k < (PatKind.placeholder k2).length) (R : List Char) :
    emailMatchHere ((PatKind.placeholder k2).drop k ++ R) = none := by
  rw [placeholder_eq]
  cases k with
  | zero =>
    simpa using email_none_lt_head ((midOf k2 ++ ['>']) ++ R)
  | succ j =>
    have hlen : (PatKind.placeholder k2).length = (midOf k2).length + 2 := by
      rw [placeholder_eq]
      simp
    have hj : j ≤ (midOf k2).length := by omega
    have h1 : ('<' :: (midOf k2 ++ ['>'])).drop (j + 1) = (midOf k2 ++ ['>']).drop j := rfl
    rw [h1, drop_append_le _ _ _ hj]
    have h2 : ((midOf k2).drop j ++ ['>']) ++ R = (midOf k2).drop j ++ '>' :: R := by
      simp
    rw [h2]
    exact email_none_local_gt _ R (fun c hc => midOf_local k2 c (List.drop_subset j _ hc))

/-- Shape of the substitution output: either the input is unchanged, or
the output is an unchanged prefix of the input followed by the
placeholder and a remainder. -/
theorem substGo_shape (m : Matcher) (ph : List Char) :
    ∀ (f : Nat) (prev : Option Char) (l : List Char),
      substGo m ph f prev l = l
        ∨ ∃ A B rest, l = A ++ B ∧ substGo m ph f prev l = A ++ (ph ++ rest) := by
  intro f
  induction f with
  | zero => intro prev l; left; rfl
  | succ f ih =>
    intro prev l
    cases l with
    | nil => left; rfl
    | cons c t =>
      cases hm : m prev (c :: t) with
      | some e =>
        right
        refine ⟨[], c :: t, substGo m ph f ((c :: t).get? (e - 1)) ((c :: t).drop e),
          rfl, ?_⟩
        simp [substGo, hm]
      | none =>
        rcases ih (some c) t with h | ⟨A, B, rest, hAB, hout⟩
        · left
          simp [substGo, hm, h]
        · right
          exact ⟨c :: A, B, rest, by simp [hAB], by simp [substGo, hm, hout]⟩

/-- The EMAIL matcher of the pattern table, applied pointwise. -/
theorem email_matcher_eq (prev : Option Char) (l : List Char) :
    PatKind.matcher .email prev l = emailMatchHere l := rfl

/-- After substituting the EMAIL pattern, no EMAIL match remains anywhere:
matches cannot start inside placeholders, gaps were scanned, and the
prefix-stability of the matcher transfers any residual match back to the
original text where the scan already ruled it out. -/
theorem email_substGo_free :
    ∀ (f : Nat) (prev : Option Char) (l : List Char), l.length ≤ f →
      ∀ j, emailMatchHere
        ((substGo (PatKind.matcher .email) (PatKind.placeholder .email) f prev l).drop j)
          = none := by
  intro f
  induction f with
  | zero =>
    intro prev l hf j
    have hl : l = [] := List.length_eq_zero.mp (Nat.le_zero.mp hf)
    subst hl
    simp [substGo, emailMatchHere_nil]
  | succ f ih =>
    intro prev l hf j
    cases l with
    | nil => simp [substGo, emailMatchHere_nil]
    | cons c t =>
      rw [substGo]
      cases hm : PatKind.matcher .email prev (c :: t) with
      | some e =>
        have he : 1 ≤ e := pat_pos .email prev (c :: t) e hm
        dsimp only
        rcases Nat.lt_or_ge j (PatKind.placeholder .email).length with hj | hj
        · rw [drop_append_le _ _ _ (Nat.le_of_lt hj)]
          exact email_none_placeholder_suffix .email j hj _
        · rw [drop_append_ge _ _ _ hj]
          exact ih _ _ (by simp only [List.length_drop, List.length_cons] at hf ⊢; omega) _
      | none =>
        dsimp only
        cases j with
        | succ j2 =>
          have hd : (c :: substGo (PatKind.matcher .email) (PatKind.placeholder .email)
              f (some c) t).drop (j2 + 1)
              = (substGo (PatKind.matcher .email) (PatKind.placeholder .email)
                  f (some c) t).drop j2 := rfl
          rw [hd]
          exact ih _ _ (by simpa using hf) _
        | zero =>
          rw [List.drop_zero]
          rcases substGo_shape (PatKind.matcher .email) (PatKind.placeholder .email)
              f (some c) t with hsh | ⟨A, B, rest, hAB, hout⟩
          · rw [hsh]
            rw [email_matcher_eq] at hm
            exact hm
          · rw [hout]
            cases hnow : emailMatchHere (c :: (A ++ (PatKind.placeholder .email ++ rest)))
              with
            | none => rfl
            | some e2 =>
              exfalso
              have hshape : c :: (A ++ (PatKind.placeholder .email ++ rest))
                  = (c :: A) ++ '<' :: ((midOf .email ++ ['>']) ++ rest) := by
                rw [placeholder_eq]
                simp
              rw [hshape] at hnow
              have h1 : (emailMatchHere ((c :: A)
                  ++ '<' :: ((midOf .email ++ ['>']) ++ rest))).isSome := by
                rw [hnow]; rfl
              have h2 := email_localize _ _ h1
              have h3 := email_extend_right (c :: A) B h2
              have h4 : c :: A ++ B = c :: t := by rw [hAB]; simp
              rw [h4, ← email_matcher_eq prev, hm] at h3
              simp at h3

/-- Substituting any pattern of the table preserves EMAIL-match-freeness:
placeholders admit no EMAIL match, and a match created at an unchanged
prefix would transfer back to the original text. -/
theorem email_substGo_preserve (k2 : PatKind) :
    ∀ (f : Nat) (prev : Option Char) (l : List Char), l.length ≤ f →
      (∀ j, emailMatchHere (l.drop j) = none) →
      ∀ j, emailMatchHere
        ((substGo (PatKind.matcher k2) (PatKind.placeholder k2) f prev l).drop j)
          = none := by
  intro f
  induction f with
  | zero =>
    intro prev l hf hfree j
    have hl : l = [] := List.length_eq_zero.mp (Nat.le_zero.mp hf)
    subst hl
    simp [substGo, emailMatchHere_nil]
  | succ f ih =>
    intro prev l hf hfree j
    cases l with
    | nil => simp [substGo, emailMatchHere_nil]
    | cons c t =>
      rw [substGo]
      cases hm : PatKind.matcher k2 prev (c :: t) with
      | some e =>
        have he : 1 ≤ e := pat_pos k2 prev (c :: t) e hm
        dsimp only
        rcases Nat.lt_or_ge j (PatKind.placeholder k2).length with hj | hj
        · rw [drop_append_le _ _ _ (Nat.le_of_lt hj)]
          exact email_none_placeholder_suffix k2 j hj _
        · rw [drop_append_ge _ _ _ hj]
          refine ih _ _ (by simp only [List.length_drop, List.length_cons] at hf ⊢; omega) ?_ _
          intro j2
          rw [List.drop_drop]
          exact hfree _
      | none =>
        dsimp only
        cases j with
        | succ j2 =>
          have hd : (c :: substGo (PatKind.matcher k2) (PatKind.placeholder k2)
              f (some c) t).drop (j2 + 1)
              = (substGo (PatKind.matcher k2) (PatKind.placeholder k2)
                  f (some c) t).drop j2 := rfl
          rw [hd]
          refine ih _ _ (by simpa using hf) ?_ _
          intro j3
          have : t.drop j3 = (c :: t).drop (j3 + 1) := rfl
          rw [this]
          exact hfree (j3 + 1)
        | zero =>
          rw [List.drop_zero]
          rcases substGo_shape (PatKind.matcher k2) (PatKind.placeholder k2)
              f (some c) t with hsh | ⟨A, B, rest, hAB, hout⟩
          · rw [hsh]
            have := hfree 0
            rw [List.drop_zero] at this
            exact this
          · rw [hout]
            cases hnow : emailMatchHere (c :: (A ++ (PatKind.placeholder k2 ++ rest)))
              with
            | none => rfl
            | some e2 =>
              exfalso
              have hshape : c :: (A ++ (PatKind.placeholder k2 ++ rest))
                  = (c :: A) ++ '<' :: ((midOf k2 ++ ['>']) ++ rest) := by
                rw [placeholder_eq]
                simp
              rw [hshape] at hnow
              have h1 : (emailMatchHere ((c :: A)
                  ++ '<' :: ((midOf k2 ++ ['>']) ++ rest))).isSome := by
                rw [hnow]; rfl
              have h2 := email_localize _ _ h1
              have h3 := email_extend_right (c :: A) B h2
              have h4 : c :: A ++ B = c :: t := by rw [hAB]; simp
              rw [h4] at h3
              have h5 := hfree 0
              rw [List.drop_zero] at h5
              rw [h5] at h3
              simp at h3

/-- Model fact: `re.search` for the EMAIL pattern fails exactly when no suffix
matches. -/
theorem searchGo_email_false :
    ∀ (f : Nat) (prev : Option Char) (l : List Char), l.length ≤ f →
      (searchGo (PatKind.matcher .email) f prev l = false
        ↔ ∀ j, emailMatchHere (l.drop j) = none) := by
  intro f
  induction f with
  | zero =>
    intro prev l hf
    have hl : l = [] := List.length_eq_zero.mp (Nat.le_zero.mp hf)
    subst hl
    simp [searchGo, emailMatchHere_nil]
  | succ f ih =>
    intro prev l hf
    cases l with
    | nil => simp [searchGo, emailMatchHere_nil]
    | cons c t =>
      rw [searchGo]
      rw [Bool.or_eq_false_iff]
      rw [ih (some c) t (by simpa using hf)]
      constructor
      · rintro ⟨h1, h2⟩ j
        cases j with
        | zero =>
          rw [List.drop_zero, ← email_matcher_eq prev]
          exact Option.not_isSome_iff_eq_none.mp (by simp [h1])
        | succ j2 => exact h2 j2
      · intro hall
        constructor
        · have h0 := hall 0
          rw [List.drop_zero, ← email_matcher_eq prev] at h0
          simp [h0]
        · intro j
          exact hall (j + 1)

/-- The `search` of EMAIL is false iff the text is EMAIL-match-free. -/
theorem search_email_false (l : List Char) :
    search (PatKind.matcher .email) l = false
      ↔ ∀ j, emailMatchHere (l.drop j) = none :=
  searchGo_email_false l.length none l (le_refl _)

/-- The PII pass preserves EMAIL-match-freeness. -/
theorem piiFold_preserve_emailFree (keys : List PatKind) :
    ∀ (t : List Char) (trig : List (List Char)),
      (∀ j, emailMatchHere (t.drop j) = none) →
      ∀ j, emailMatchHere ((piiFold keys t trig).1.drop j) = none := by
  induction keys with
  | nil => intro t trig hfree j; exact hfree j
  | cons k ks ih =>
    intro t trig hfree j
    rw [piiFold]
    split
    · exact ih _ _ (email_substGo_preserve k t.length none t (le_refl _) hfree) j
    · exact ih _ _ hfree j

/-- After the PII pass of an engine whose profile enables EMAIL, the
running text is EMAIL-match-free. -/
theorem piiFold_emailFree (keys : List PatKind) :
    ∀ (t : List Char) (trig : List (List Char)), PatKind.email ∈ keys →
      ∀ j, emailMatchHere ((piiFold keys t trig).1.drop j) = none := by
  induction keys with
  | nil => intro t trig hmem; exact absurd hmem (List.not_mem_nil _)
  | cons k ks ih =>
    intro t trig hmem j
    by_cases hk : k = PatKind.email
    · subst hk
      rw [piiFold]
      cases hs : search (PatKind.matcher .email) t with
      | true =>
        rw [if_pos rfl]
        exact piiFold_preserve_emailFree ks _ _
          (email_substGo_free t.length none t (le_refl _)) j
      | false =>
        rw [if_neg (by simp)]
        exact piiFold_preserve_emailFree ks _ _ ((search_email_false t).mp hs) j
    · have hmem2 : PatKind.email ∈ ks := by
        cases hmem with
        | head => exact absurd rfl hk
        | tail _ h => exact h
      rw [piiFold]
      split
      · exact ih _ _ hmem2 j
      · exact ih _ _ hmem2 j

/-- Splitting the PII pass at a pattern boundary. -/
theorem piiFold_append_keys (K1 K2 : List PatKind) :
    ∀ (t : List Char) (trig : List (List Char)),
      piiFold (K1 ++ K2) t trig
        = piiFold K2 (piiFold K1 t trig).1 (piiFold K1 t trig).2 := by
  induction K1 with
  | nil => intro t trig; rfl
  | cons k ks ih =>
    intro t trig
    rw [List.cons_append, piiFold, piiFold]
    split
    · exact ih _ _
    · exact ih _ _

/-- The PII pass only ever appends to the triggered list. -/
theorem piiFold_trig_extend (keys : List PatKind) :
    ∀ (t : List Char) (trig : List (List Char)),
      ∃ add, (piiFold keys t trig).2 = trig ++ add := by
  induction keys with
  | nil => intro t trig; exact ⟨[], by simp [piiFold]⟩
  | cons k ks ih =>
    intro t trig
    rw [piiFold]
    split
    · obtain ⟨add, hadd⟩ := ih (subst (PatKind.matcher k) (PatKind.placeholder k) t)
        (trig ++ ["PII:".toList ++ k.name])
      exact ⟨["PII:".toList ++ k.name] ++ add, by rw [hadd, List.append_assoc]⟩
    · exact ih t trig

/-- The scan's triggered list extends the PII pass's triggered list. -/
theorem scan_triggered_shape (e : Engine) (t : List Char) :
    ∃ tail, (scan e t).triggered = (piiFold e.piiKeys t []).2 ++ tail := by
  unfold scan scanT
  dsimp only
  cases e.topicPattern with
  | none =>
    cases e.semantic with
    | none => exact ⟨[], by simp⟩
    | some sc =>
      dsimp only
      split
      · exact ⟨_, rfl⟩
      · exact ⟨[], by simp⟩
  | some ps =>
    cases e.semantic with
    | none =>
      dsimp only
      split
      · exact ⟨[], by simp⟩
      · exact ⟨_, rfl⟩
    | some sc =>
      dsimp only
      split
      · split
        · exact ⟨_, rfl⟩
        · exact ⟨_, List.append_assoc _ _ _⟩
      · split
        · exact ⟨[], by simp⟩
        · exact ⟨_, rfl⟩

/-- Membership in the PII triggered rules carries over to the scan. -/
theorem scan_triggered_of_pii (e : Engine) (t : List Char) (x : List Char)
    (hx : x ∈ (piiFold e.piiKeys t []).2) : x ∈ (scan e t).triggered := by
  obtain ⟨tail, htail⟩ := scan_triggered_shape e t
  rw [htail]
  exact List.mem_append_left _ hx

/-- A successful search makes the substitution insert its placeholder. -/
theorem searchGo_substGo_hit (m : Matcher) (ph : List Char) :
    ∀ (f : Nat) (prev : Option Char) (l : List Char),
      searchGo m f prev l = true →
      ∃ A rest, substGo m ph f prev l = A ++ (ph ++ rest) := by
  intro f
  induction f with
  | zero => intro prev l h; simp [searchGo] at h
  | succ f ih =>
    intro prev l h
    cases l with
    | nil => simp [searchGo] at h
    | cons c t =>
      cases hm : m prev (c :: t) with
      | some e =>
        exact ⟨[], substGo m ph f ((c :: t).get? (e - 1)) ((c :: t).drop e),
          by simp [substGo, hm]⟩
      | none =>
        rw [searchGo, hm] at h
        simp only [Option.isSome_none, Bool.false_or] at h
        obtain ⟨A, rest, hout⟩ := ih (some c) t h
        exact ⟨c :: A, rest, by simp [substGo, hm, hout]⟩

/-! ## C6 — the claim theorem -/

/-- C6: for every engine whose profile enables the EMAIL pattern and every
text containing an email-shaped substring `u` (a full match of the EMAIL
regex), the literal substring `u` is absent from
`validate(text).sanitized_text`.  Moreover, whichever enabled pattern
fires at its turn in the pass has its kind recorded as `PII:{name}` in
the triggered rules, and its substitution inserts the fixed placeholder
named after the kind. -/
theorem C6_email_absent_after_validate (e : Engine)
    (hmem : PatKind.email ∈ e.piiKeys)
    (T A u B : List Char) (hT : T = A ++ u ++ B)
    (hu : emailMatchHere u = some u.length) :
    (∀ A2 B2, (validate e T).sanitized_text ≠ A2 ++ u ++ B2)
      ∧ (∀ K1 k K2, e.piiKeys = K1 ++ k :: K2 →
          search (PatKind.matcher k) ((piiFold K1 T []).1) = true →
            ("PII:".toList ++ PatKind.name k) ∈ (scan e T).triggered
              ∧ ∃ A3 rest,
                  subst (PatKind.matcher k) (PatKind.placeholder k)
                      ((piiFold K1 T []).1)
                    = A3 ++ (PatKind.placeholder k ++ rest)) := by
  constructor
  · intro A2 B2 hcontra
    rw [validate_sanitized, scan_sanitized] at hcontra
    have hfree := piiFold_emailFree e.piiKeys T [] hmem A2.length
    rw [hcontra, List.append_assoc, drop_append_ge A2 (u ++ B2) A2.length (le_refl _),
      Nat.sub_self, List.drop_zero] at hfree
    have hsome := email_extend_right u B2 (by rw [hu]; rfl)
    rw [hfree] at hsome
    simp at hsome
  · intro K1 k K2 hkeys hsearch
    constructor
    · have h1 : (piiFold e.piiKeys T []).2 = (piiFold (K1 ++ k :: K2) T []).2 := by
        rw [hkeys]
      have h2 := piiFold_append_keys K1 (k :: K2) T []
      have hstep : piiFold (k :: K2) (piiFold K1 T []).1 (piiFold K1 T []).2
          = piiFold K2 (subst (PatKind.matcher k) (PatKind.placeholder k)
              (piiFold K1 T []).1)
            ((piiFold K1 T []).2 ++ ["PII:".toList ++ PatKind.name k]) := by
        rw [piiFold, if_pos hsearch]
      obtain ⟨add, hadd⟩ := piiFold_trig_extend K2
        (subst (PatKind.matcher k) (PatKind.placeholder k) (piiFold K1 T []).1)
        ((piiFold K1 T []).2 ++ ["PII:".toList ++ PatKind.name k])
      apply scan_triggered_of_pii
      rw [h1, h2, hstep, hadd]
      refine List.mem_append_left _ ?_
      exact List.mem_append_right _ (by simp)
    · obtain ⟨A3, rest, hout⟩ := searchGo_substGo_hit (PatKind.matcher k)
        (PatKind.placeholder k) ((piiFold K1 T []).1).length none
        ((piiFold K1 T []).1) hsearch
      exact ⟨A3, rest, hout⟩

/-- Witness for C6: the engine with EMAIL enabled on
`contact a@b.com now`, whose sanitized text never contains `a@b.com`. -/
theorem C6_email_absent_after_validate_witness :
    PatKind.email ∈ engE.piiKeys
      ∧ emailMatchHere "a@b.com".toList = some ("a@b.com".toList).length
      ∧ ∀ A2 B2, (validate engE "contact a@b.com now".toList).sanitized_text
          ≠ A2 ++ "a@b.com".toList ++ B2 :=
  ⟨by decide, rfl,
    (C6_email_absent_after_validate engE (by decide)
      "contact a@b.com now".toList "contact ".toList "a@b.com".toList " now".toList
      rfl rfl).1⟩

/-! ## C9 — topic pass: whole-word case-insensitive matching -/

/-- Head of a nonempty left part of an append. -/
theorem append_get_zero (w B : List Char) (hw : w ≠ []) :
    (w ++ B).get? 0 = w.head? := by
  cases w with
  | nil => exact absurd rfl hw
  | cons c t => rfl

/-- Last character of the left part of an append, read by index. -/
theorem append_get_last (w B : List Char) (hw : w ≠ []) :
    (w ++ B).get? (w.length - 1) = w.getLast? := by
  induction w with
  | nil => exact absurd rfl hw
  | cons c t ih =>
    cases t with
    | nil => rfl
    | cons d t2 =>
      have h1 : ((c :: d :: t2) ++ B).get? ((c :: d :: t2).length - 1)
          = ((d :: t2) ++ B).get? ((d :: t2).length - 1) := by
        simp [List.length_cons]
      rw [h1, ih (by simp), List.getLast?_cons_cons]

/-- First character of the right part of an append, read by index. -/
theorem append_get_after (w B : List Char) :
    (w ++ B).get? w.length = B.head? := by
  rw [List.get?_append_right (le_refl _), Nat.sub_self]
  cases B <;> rfl

/-- The previous character seen after consuming `A`, starting from `prev`. -/
def prevAfter (prev : Option Char) (A : List Char) : Option Char :=
  match A.getLast? with
  | some c => some c
  | none => prev

/-- Consuming one more character first. -/
theorem prevAfter_cons (prev : Option Char) (c : Char) (A : List Char) :
    prevAfter (some c) A = prevAfter prev (c :: A) := by
  cases A with
  | nil => rfl
  | cons a t =>
    unfold prevAfter
    rw [List.getLast?_cons_cons]
    cases h : (a :: t).getLast? with
    | some d => rfl
    | none =>
      exfalso
      have : (a :: t).getLast?.isSome := List.getLast?_isSome.mpr (by simp)
      rw [h] at this
      simp at this

/-- From nothing consumed, the previous character is the start marker. -/
theorem prevAfter_none (A : List Char) : prevAfter none A = A.getLast? := by
  unfold prevAfter
  cases A.getLast? <;> rfl

/-- Characterization of a phrase match anchored at the head. -/
theorem phraseHere_isSome_iff (prev : Option Char) (l p : List Char) :
    (phraseHere prev l p).isSome ↔
      (p ≠ [] ∧ ∃ w B, l = w ++ B ∧ lowerList w = lowerList p
        ∧ boundary prev w.head? = true ∧ boundary w.getLast? B.head? = true) := by
  unfold phraseHere
  dsimp only
  split
  · rename_i hcond
    simp only [Bool.and_eq_true, decide_eq_true_eq, Bool.not_eq_true',
      List.isEmpty_eq_false] at hcond
    obtain ⟨⟨⟨⟨hlen, hlow⟩, hb1⟩, hb2⟩, hne⟩ := hcond
    simp only [Option.isSome_some, true_iff]
    refine ⟨hne, l.take p.length, l.drop p.length, (List.take_append_drop _ _).symm,
      hlow, ?_, ?_⟩
    · have hw : l.take p.length ≠ [] := by
        intro hcontra
        rw [hcontra] at hlen
        simp at hlen
        exact hne (List.length_eq_zero.mp hlen.symm)
      rw [← append_get_zero (l.take p.length) (l.drop p.length) hw,
        List.take_append_drop]
      exact hb1
    · have hw : l.take p.length ≠ [] := by
        intro hcontra
        rw [hcontra] at hlen
        simp at hlen
        exact hne (List.length_eq_zero.mp hlen.symm)
      rw [← append_get_last (l.take p.length) (l.drop p.length) hw,
        ← append_get_after (l.take p.length) (l.drop p.length)]
      rw [hlen, List.take_append_drop]
      exact hb2
  · rename_i hcond
    simp only [Bool.and_eq_true, decide_eq_true_eq, Bool.not_eq_true',
      List.isEmpty_eq_false, not_and] at hcond
    simp only [Option.isSome_none, Bool.false_eq_true, false_iff, not_and]
    rintro hne ⟨w, B, hl, hlow, hb1, hb2⟩
    have hwp : w.length = p.length := by
      have := congrArg List.length hlow
      simpa [lowerList] using this
    have hw : w ≠ [] := by
      intro hcontra
      rw [hcontra] at hwp
      exact hne (List.length_eq_zero.mp hwp.symm)
    have htake : l.take p.length = w := by
      rw [hl, ← hwp, List.take_left]
    refine absurd hne (hcond ⟨⟨⟨?_, ?_⟩, ?_⟩, ?_⟩)
    · rw [htake, hwp]
    · rw [htake]
      exact hlow
    · rw [hl, append_get_zero w B hw]
      exact hb1
    · rw [hl, ← hwp, append_get_last w B hw, append_get_after w B]
      exact hb2

/-- A successful alternation picks some phrase of the list. -/
theorem altHere_some (prev : Option Char) (l : List Char) :
    ∀ (ps : List (List Char)) (sl : List Char), altHere prev l ps = some sl →
      ∃ p ∈ ps, phraseHere prev l p = some sl := by
  intro ps
  induction ps with
  | nil => intro sl h; exact Option.noConfusion h
  | cons p ps ih =>
    intro sl h
    rw [altHere] at h
    cases hp : phraseHere prev l p with
    | some sl2 =>
      rw [hp] at h
      exact ⟨p, by simp, by rw [hp, Option.some.inj h]⟩
    | none =>
      rw [hp] at h
      obtain ⟨p2, hp2, hph⟩ := ih sl h
      exact ⟨p2, by simp [hp2], hph⟩

/-- A failed alternation fails on every phrase of the list. -/
theorem altHere_none (prev : Option Char) (l : List Char) :
    ∀ (ps : List (List Char)), altHere prev l ps = none →
      ∀ p ∈ ps, phraseHere prev l p = none := by
  intro ps
  induction ps with
  | nil => intro _ p hp; exact absurd hp (List.not_mem_nil p)
  | cons q ps ih =>
    intro h p hp
    rw [altHere] at h
    cases hq : phraseHere prev l q with
    | some sl => rw [hq] at h; exact Option.noConfusion h
    | none =>
      rw [hq] at h
      cases hp with
      | head => exact hq
      | tail _ hmem => exact ih h p hmem

/-- A whole-word, case-insensitive occurrence of some phrase of `ps` in
`l`, scanned with `prev` before `l`. -/
def occFrom (ps : List (List Char)) (prev : Option Char) (l : List Char) : Prop :=
  ∃ p ∈ ps, p ≠ [] ∧ ∃ A w B, l = A ++ w ++ B ∧ lowerList w = lowerList p
    ∧ boundary (prevAfter prev A) w.head? = true
    ∧ boundary w.getLast? B.head? = true

/-- The `findall` scan finds a match exactly when an occurrence exists. -/
theorem findallGo_ne_iff (ps : List (List Char)) :
    ∀ (f : Nat) (prev : Option Char) (l : List Char), l.length ≤ f →
      (findallGo ps f prev l ≠ [] ↔ occFrom ps prev l) := by
  intro f
  induction f with
  | zero =>
    intro prev l hf
    have hl : l = [] := List.length_eq_zero.mp (Nat.le_zero.mp hf)
    subst hl
    simp only [findallGo, ne_eq, not_true_eq_false, false_iff]
    rintro ⟨p, hp, hne, A, w, B, hl2, hlow, -, -⟩
    have hwp : w.length = p.length := by
      have := congrArg List.length hlow
      simpa [lowerList] using this
    have hlen0 := congrArg List.length hl2
    simp only [List.length_nil, List.length_append] at hlen0
    have hp0 : p.length = 0 := by omega
    exact hne (List.length_eq_zero.mp hp0)
  | succ f ih =>
    intro prev l hf
    cases l with
    | nil =>
      simp only [findallGo, ne_eq, not_true_eq_false, false_iff]
      rintro ⟨p, hp, hne, A, w, B, hl2, hlow, -, -⟩
      have hwp : w.length = p.length := by
        have := congrArg List.length hlow
        simpa [lowerList] using this
      have hlen0 := congrArg List.length hl2
      simp only [List.length_nil, List.length_append] at hlen0
      have hp0 : p.length = 0 := by omega
      exact hne (List.length_eq_zero.mp hp0)
    | cons c t =>
      rw [findallGo]
      cases halt : altHere prev (c :: t) ps with
      | some sl =>
        simp only [ne_eq, reduceCtorEq, not_false_eq_true, true_iff]
        obtain ⟨p, hp, hph⟩ := altHere_some prev (c :: t) ps sl halt
        have hsome : (phraseHere prev (c :: t) p).isSome := by rw [hph]; rfl
        rw [phraseHere_isSome_iff] at hsome
        obtain ⟨hne, w, B, hl2, hlow, hb1, hb2⟩ := hsome
        exact ⟨p, hp, hne, [], w, B, by simpa using hl2, hlow,
          by simpa [prevAfter] using hb1, hb2⟩
      | none =>
        rw [ih (some c) t (by simpa using hf)]
        constructor
        · rintro ⟨p, hp, hne, A, w, B, hl2, hlow, hb1, hb2⟩
          refine ⟨p, hp, hne, c :: A, w, B, by simp [hl2], hlow, ?_, hb2⟩
          rw [← prevAfter_cons prev c A]
          exact hb1
        · rintro ⟨p, hp, hne, A, w, B, hl2, hlow, hb1, hb2⟩
          cases A with
          | nil =>
            exfalso
            have hsome : (phraseHere prev (c :: t) p).isSome := by
              rw [phraseHere_isSome_iff]
              exact ⟨hne, w, B, by simpa using hl2, hlow,
                by simpa [prevAfter] using hb1, hb2⟩
            rw [altHere_none prev (c :: t) ps halt p hp] at hsome
            simp at hsome
          | cons c2 A2 =>
            have hc : c2 = c := by
              have := congrArg (fun x => List.head? x) hl2
              simpa using this.symm
            subst hc
            refine ⟨p, hp, hne, A2, w, B, by simpa using hl2, hlow, ?_, hb2⟩
            rw [prevAfter_cons prev c2 A2]
            exact hb1

/-- Whole-word, case-insensitive occurrence of a block-list phrase. -/
def topicOccurs (ps : List (List Char)) (s : List Char) : Prop :=
  ∃ p ∈ ps, p ≠ [] ∧ ∃ A w B, s = A ++ w ++ B ∧ lowerList w = lowerList p
    ∧ boundary A.getLast? w.head? = true
    ∧ boundary w.getLast? B.head? = true

/-- At the start of the scan the occurrence notions agree. -/
theorem occFrom_none_iff (ps : List (List Char)) (l : List Char) :
    occFrom ps none l ↔ topicOccurs ps l := by
  unfold occFrom topicOccurs
  constructor
  · rintro ⟨p, hp, hne, A, w, B, h1, h2, h3, h4⟩
    rw [prevAfter_none] at h3
    exact ⟨p, hp, hne, A, w, B, h1, h2, h3, h4⟩
  · rintro ⟨p, hp, hne, A, w, B, h1, h2, h3, h4⟩
    rw [← prevAfter_none A] at h3
    exact ⟨p, hp, hne, A, w, B, h1, h2, h3, h4⟩

/-- When the topic pattern fires, the `Topic:` rule built from the
deduplicated, sorted matched slices is among the scan's triggered rules. -/
theorem scan_topic_entry (e : Engine) (ps : List (List Char)) (t : List Char)
    (hps : e.topicPattern = some ps)
    (hne : findall ps (piiFold e.piiKeys t []).1 ≠ []) :
    ("Topic:".toList ++ joinSep ",".toList
        (sortedUnique (findall ps (piiFold e.piiKeys t []).1)))
      ∈ (scan e t).triggered := by
  unfold scan scanT
  dsimp only
  rw [hps]
  cases e.semantic with
  | none =>
    dsimp only
    split
    · rename_i hemp
      exact absurd (List.isEmpty_iff.mp hemp) hne
    · exact List.mem_append_right _ (by simp)
  | some sc =>
    dsimp only
    split
    · split
      · rename_i hemp
        exact absurd (List.isEmpty_iff.mp hemp) hne
      · exact List.mem_append_left _ (List.mem_append_right _ (by simp))
    · split
      · rename_i hemp
        exact absurd (List.isEmpty_iff.mp hemp) hne
      · exact List.mem_append_right _ (by simp)

/-- C9: with a compiled topic pattern, the topic pass leaves the running
text (the PII pass output) unaltered; it fires exactly when some
configured phrase occurs case-insensitively at whole-word boundaries in
that text; and when it fires, the rule recorded for the verdict reason is
`Topic:` followed by the matched slices, deduplicated and sorted. -/
theorem C9_topic_pass (e : Engine) (ps : List (List Char)) (t : List Char)
    (hps : e.topicPattern = some ps) :
    (scan e t).sanitized = (piiFold e.piiKeys t []).1
      ∧ (findall ps (piiFold e.piiKeys t []).1 ≠ []
          ↔ topicOccurs ps (piiFold e.piiKeys t []).1)
      ∧ (findall ps (piiFold e.piiKeys t []).1 ≠ [] →
          ("Topic:".toList ++ joinSep ",".toList
              (sortedUnique (findall ps (piiFold e.piiKeys t []).1)))
            ∈ (scan e t).triggered) := by
  refine ⟨scan_sanitized e t, ?_, scan_topic_entry e ps t hps⟩
  rw [← occFrom_none_iff]
  exact findallGo_ne_iff ps ((piiFold e.piiKeys t []).1).length none _ (le_refl _)

/-- Witness for C9 on the `["fraud"]` profile and a matching input. -/
theorem C9_topic_pass_witness :
    engTopic.topicPattern = some ["fraud".toList]
      ∧ (scan engTopic "commit fraud".toList).sanitized
        = (piiFold engTopic.piiKeys "commit fraud".toList []).1
      ∧ (findall ["fraud".toList] (piiFold engTopic.piiKeys "commit fraud".toList []).1 ≠ []
          ↔ topicOccurs ["fraud".toList]
              (piiFold engTopic.piiKeys "commit fraud".toList []).1) :=
  ⟨rfl, (C9_topic_pass engTopic ["fraud".toList] "commit fraud".toList rfl).1,
    (C9_topic_pass engTopic ["fraud".toList] "commit fraud".toList rfl).2.1⟩
